import Mathlib

set_option maxHeartbeats 1000000
set_option maxRecDepth 10000

namespace SudokuSpec

/-- Digit characters recognised by the loader (the Python membership test `c in "123456789"`). -/
def digitChars : List Char := ['1', '2', '3', '4', '5', '6', '7', '8', '9']

/-- Board cell, mirroring the Python dataclass `Point`: grid coordinates, current value
(0 = unset), the set of values that already failed at this cell, the cached availability
set (`_available` in the source) and the one-character provenance tag (`source`). -/
structure Point where
  row : ℕ
  col : ℕ
  value : ℕ
  failed : Finset ℕ
  avcache : Finset ℕ
  src : Char
deriving DecidableEq

/-- Row of the enclosing 3x3 block (`Point.bigrow`, `int(self.row/3)`). -/
def Point.bigrow (p : Point) : ℕ := p.row / 3

/-- Column of the enclosing 3x3 block (`Point.bigcol`, `int(self.col/3)`). -/
def Point.bigcol (p : Point) : ℕ := p.col / 3

/-- Default point used where Python would dereference a known-present list element. -/
def pdef : Point := ⟨0, 0, 0, ∅, ∅, ' '⟩

/-- Board state, mirroring the Python dataclass `Sudoku` (the statistics class variables
are threaded separately through the solver as a `Stats` record). -/
structure Sudoku where
  startpos : String
  name : String
  points : List Point
deriving DecidableEq

/-- Fresh points list created by `__post_init__`: 81 cells in row-major order, all unset. -/
def initPoints : List Point := (List.range 81).map (fun i => ⟨i / 9, i % 9, 0, ∅, ∅, ' '⟩)

/-- Characters of `f"{self.startpos:81}"`: the starting string left-justified and padded
with blanks to a minimum width of 81 (a longer string is left unchanged). -/
def padTo81 (s : String) : List Char := s.toList ++ List.replicate (81 - s.length) ' '

/-- Value parsed from one character: `int(c) if c in "123456789" else 0`. -/
def charValue (c : Char) : ℕ := if c ∈ digitChars then c.toNat - 48 else 0

/-- Board construction (`Sudoku.__post_init__`): fill with 81 blank cells; if a starting
string was given, read each cell's character at index `col + 9*row` of the padded string;
otherwise set the single default seed `points[4+9*4].value = 1`. -/
def mkSudoku (startpos : String) (nm : String) : Sudoku :=
  if startpos ≠ ⟨[]⟩ then
    { startpos := startpos, name := nm,
      points := initPoints.map (fun p =>
        { p with value := charValue ((padTo81 startpos).getD (p.col + 9 * p.row) ' ') }) }
  else
    { startpos := startpos, name := nm,
      points := initPoints.set (4 + 9 * 4) { (initPoints.getD (4 + 9 * 4) pdef) with value := 1 } }

/-- Values present on the row of the point (`Sudoku.onrow`). -/
def Sudoku.onrow (s : Sudoku) (point : Point) : Finset ℕ :=
  ((s.points.filter (fun q => decide (q.value ≠ 0 ∧ q.row = point.row))).map (·.value)).toFinset

/-- Values present on the column of the point (`Sudoku.oncol`). -/
def Sudoku.oncol (s : Sudoku) (point : Point) : Finset ℕ :=
  ((s.points.filter (fun q => decide (q.value ≠ 0 ∧ q.col = point.col))).map (·.value)).toFinset

/-- Values present in the 3x3 block of the point (`Sudoku.in3x3`). -/
def Sudoku.in3x3 (s : Sudoku) (point : Point) : Finset ℕ :=
  ((s.points.filter (fun q =>
    decide (q.value ≠ 0 ∧ q.bigrow = point.bigrow ∧ q.bigcol = point.bigcol))).map (·.value)).toFinset

/-- Values that are not available for the point (`Sudoku.used`). -/
def Sudoku.used (s : Sudoku) (point : Point) : Finset ℕ :=
  s.oncol point ∪ s.onrow point ∪ s.in3x3 point ∪ point.failed

/-- The literal set `{1, 2, 3, 4, 5, 6, 7, 8, 9}` from `Sudoku.available`. -/
def nineDigits : Finset ℕ := {1, 2, 3, 4, 5, 6, 7, 8, 9}

/-- Freshly recomputed availability set, `{1,...,9} - self.used(point)`. -/
def Sudoku.availFresh (s : Sudoku) (point : Point) : Finset ℕ := nineDigits \ s.used point

/-- Value returned by `Sudoku.available`: recompute when the cell is unset and its cache is
empty, otherwise return the cache.  (The accompanying cache write is `Sudoku.fillcache`.) -/
def Sudoku.available (s : Sudoku) (point : Point) : Finset ℕ :=
  if point.value = 0 ∧ point.avcache = ∅ then s.availFresh point else point.avcache

/-- State change performed by `Sudoku.available`: the queried cell's cache is populated
with the fresh availability set when the cell is unset and the cache was empty. -/
def Sudoku.fillcache (s : Sudoku) (t : Point) : Sudoku :=
  { s with points := s.points.map (fun p =>
      if p.row = t.row ∧ p.col = t.col ∧ p.value = 0 ∧ p.avcache = ∅ then
        { p with avcache := s.availFresh p } else p) }

/-- Clear every cell's availability cache (`Sudoku.clearcache`). -/
def Sudoku.clearcache (s : Sudoku) : Sudoku :=
  { s with points := s.points.map (fun p => { p with avcache := ∅ }) }

/-- Assign a value and provenance tag to the cell at the point's position, then clear the
whole-board cache (`Sudoku.setpoint`). -/
def Sudoku.setpoint (s : Sudoku) (t : Point) (value : ℕ) (tag : Char) : Sudoku :=
  Sudoku.clearcache { s with points := s.points.map (fun p =>
    if p.row = t.row ∧ p.col = t.col then { p with value := value, src := tag } else p) }

/-- Record a failed value at the cell at the point's position, then clear the whole-board
cache (`Sudoku.failed`; the global fail counter is threaded through the solver). -/
def Sudoku.failed (s : Sudoku) (t : Point) (value : ℕ) : Sudoku :=
  Sudoku.clearcache { s with points := s.points.map (fun p =>
    if p.row = t.row ∧ p.col = t.col then { p with failed := insert value p.failed } else p) }

/-- Line deduction for one point (`Sudoku.deduce`): scan every other unset cell, adding its
availability set to `deducerow` when it shares the point's row, else to `deducecol` when it
shares the point's column; answer with whichever difference from the point's own
availability is a singleton (row first), or the empty set. -/
def Sudoku.deduce (s : Sudoku) (point : Point) : Finset ℕ :=
  let dd := s.points.foldl (fun (acc : Finset ℕ × Finset ℕ) p =>
    if point ≠ p ∧ p.value = 0 then
      if point.row = p.row then (acc.1 ∪ s.available p, acc.2)
      else if point.col = p.col then (acc.1, acc.2 ∪ s.available p)
      else acc
    else acc) (∅, ∅)
  let ans := s.available point \ dd.1
  if ans.card = 1 then ans
  else
    let ans2 := s.available point \ dd.2
    if ans2.card = 1 then ans2 else ∅

/-- Points deducible to a single value (`Sudoku.deduced`): unset, more than one candidate,
and a non-empty deduction. -/
def Sudoku.deduced (s : Sudoku) : List Point :=
  s.points.filter (fun p => decide (p.value = 0 ∧ 1 < (s.available p).card ∧ s.deduce p ≠ ∅))

/-- Unset cells sorted (stably) by ascending number of available values (`Sudoku.todo`). -/
def Sudoku.todo (s : Sudoku) : List Point :=
  (s.points.filter (fun p => decide (p.value = 0))).insertionSort
    (fun p q => (s.available p).card ≤ (s.available q).card)

/-- Process-wide search statistics (`Sudoku`'s class variables). -/
structure Stats where
  thinks : ℕ
  guesses : ℕ
  deductions : ℕ
  fails : ℕ
  maxlevel : ℕ
deriving DecidableEq

/-- Statistics at program start: every counter is zero. -/
def initStats : Stats := ⟨0, 0, 0, 0, 0⟩

/-- Outcome of `solve`: `True` together with the completed board that was displayed at the
bottom of the successful call, or `False`. -/
inductive SolveRes where
  | success (final : Sudoku)
  | failure
deriving DecidableEq

/-- Guess provenance tags, the Python literal `'abcedfghijk'` indexed by the number of
values already failed at the cell. -/
def guessTags : List Char := ['a', 'b', 'c', 'e', 'd', 'f', 'g', 'h', 'i', 'j', 'k']

mutual

/-- Entry of `solve(s, level, deduce)`: update the maximum-depth statistic, then run the
propagation loop.  Fuel makes the recursion structural; `none` means the fuel ran out,
`some` carries the Python return value and the updated statistics. -/
def solve (pick : Finset ℕ → ℕ) (dflag : Bool) (fuel : ℕ) (s : Sudoku) (level : ℕ)
    (st : Stats) : Option (SolveRes × Stats) :=
  match fuel with
  | 0 => none
  | f + 1 => solveKnown pick dflag f s level { st with maxlevel := max st.maxlevel level }
termination_by structural fuel

/-- Propagation loop of `solve` ("Known values"): while there are unset cells and either
the most constrained cell has exactly one candidate or some cell is deducible, assign a
forced single (tag `'='`) or the first deduced singleton (tag `'*'`). -/
def solveKnown (pick : Finset ℕ → ℕ) (dflag : Bool) (fuel : ℕ) (s : Sudoku) (level : ℕ)
    (st : Stats) : Option (SolveRes × Stats) :=
  match fuel with
  | 0 => none
  | f + 1 =>
    if s.todo ≠ [] ∧ ((s.available (s.todo.headD pdef)).card = 1 ∨ (dflag ∧ s.deduced ≠ [])) then
      if (s.available (s.todo.headD pdef)).card = 1 then
        let todo := s.todo.headD pdef
        solveKnown pick dflag f (s.setpoint todo (pick (s.available todo)) '=') level
          { st with thinks := st.thinks + 1 }
      else
        let todo := s.deduced.headD pdef
        solveKnown pick dflag f (s.setpoint todo (pick (s.deduce todo)) '*') level
          { st with deductions := st.deductions + 1 }
    else solveGuess pick dflag f s level st
termination_by structural fuel

/-- Search loop of `solve` ("Going to have to guess"): while unset cells remain, pick the
most constrained one; with no candidate left return failure, otherwise try one candidate
on a deep copy (value semantics make the copy the board itself), recurse, and on failure
record the candidate as failed and continue. -/
def solveGuess (pick : Finset ℕ → ℕ) (dflag : Bool) (fuel : ℕ) (s : Sudoku) (level : ℕ)
    (st : Stats) : Option (SolveRes × Stats) :=
  match fuel with
  | 0 => none
  | f + 1 =>
    if s.todo ≠ [] then
      let todo := s.todo.headD pdef
      if s.available todo ≠ ∅ then
        let use := pick (s.available todo)
        let nextlevel := s
        let nexttodo := nextlevel.todo.headD pdef
        let next := nextlevel.setpoint nexttodo use (guessTags.getD nexttodo.failed.card '?')
        match solve pick dflag f next (level + 1) { st with guesses := st.guesses + 1 } with
        | none => none
        | some (.success b, st1) => some (.success b, st1)
        | some (.failure, st1) =>
            solveGuess pick dflag f (s.failed todo use) level { st1 with fails := st1.fails + 1 }
      else some (.failure, st)
    else some (.success s, st)
termination_by structural fuel

end

/-- Concrete candidate-picking function standing in for Python's set iteration order:
take the smallest available value. -/
def pickOne (A : Finset ℕ) : ℕ := if h : A.Nonempty then A.min' h else 0

theorem pickOne_mem (A : Finset ℕ) (h : A.Nonempty) : pickOne A ∈ A := by
  unfold pickOne
  rw [dif_pos h]
  exact A.min'_mem h

/-! ### Construction lemmas (claims C8 and C10) -/

theorem initPoints_length : initPoints.length = 81 := by
  simp [initPoints]

theorem initPoints_getD (i : ℕ) (h : i < 81) :
    initPoints.getD i pdef = ⟨i / 9, i % 9, 0, ∅, ∅, ' '⟩ := by
  unfold initPoints
  rw [List.getD_eq_getElem?_getD, List.getElem?_map, List.getElem?_range h]
  rfl

theorem mkSudoku_points_length (startpos nm : String) :
    (mkSudoku startpos nm).points.length = 81 := by
  unfold mkSudoku
  split <;> simp [initPoints]

theorem string_length_eq (s : String) : s.length = s.toList.length := rfl

theorem padTo81_getD (s : String) (i : ℕ) (_h : i < 81) :
    (padTo81 s).getD i ' ' = s.toList.getD i ' ' := by
  unfold padTo81
  rw [List.getD_eq_getElem?_getD, List.getD_eq_getElem?_getD]
  rcases Nat.lt_or_ge i s.toList.length with hlt | hge
  · rw [List.getElem?_append_left hlt]
  · rw [List.getElem?_append_right hge, List.getElem?_eq_none hge]
    rcases Nat.lt_or_ge (i - s.toList.length) (81 - s.length) with hj | hj
    · rw [List.getElem?_replicate_of_lt hj]
      rfl
    · rw [List.getElem?_eq_none (by simpa using hj)]

theorem mkSudoku_points_getD (startpos nm : String) (i : ℕ) (h : i < 81) :
    (mkSudoku startpos nm).points.getD i pdef =
      ⟨i / 9, i % 9,
       (if startpos = ⟨[]⟩ then (if i = 4 + 9 * 4 then 1 else 0)
        else charValue ((padTo81 startpos).getD i ' ')), ∅, ∅, ' '⟩ := by
  by_cases hs : startpos = ⟨[]⟩
  · simp only [mkSudoku, hs, ne_eq, not_true_eq_false, if_false, if_pos rfl]
    rw [List.getD_eq_getElem?_getD]
    by_cases h40 : i = 4 + 9 * 4
    · subst h40
      rw [List.getElem?_set_self (by simp [initPoints])]
      rw [if_pos rfl]
      decide
    · rw [List.getElem?_set_ne (fun heq => h40 heq.symm)]
      rw [if_neg h40, ← List.getD_eq_getElem?_getD]
      exact initPoints_getD i h
  · simp only [mkSudoku, if_pos (by simpa using hs), if_neg hs]
    rw [List.getD_eq_getElem?_getD, List.getElem?_map]
    have hip : initPoints[i]? = some (⟨i / 9, i % 9, 0, ∅, ∅, ' '⟩ : Point) := by
      unfold initPoints
      rw [List.getElem?_map, List.getElem?_range h]
      rfl
    rw [hip]
    show (⟨i / 9, i % 9,
      charValue ((padTo81 startpos).getD (i % 9 + 9 * (i / 9)) ' '), ∅, ∅, ' '⟩ : Point) = _
    rw [Nat.mod_add_div i 9]

/-- C8: construction from a starting string always succeeds and builds 81 cells in
row-major order; the cell at index `i` has row `i / 9` and column `i % 9`; a character
'1'-'9' becomes that value and any other character, or a position beyond the end of a
short string, yields 0; an empty starting string leaves everything unset except the centre
cell (row 4, col 4, list index 4 + 9*4 = 40), which gets value 1. -/
theorem C8_construction (startpos nm : String) :
    (mkSudoku startpos nm).points.length = 81 ∧
    (∀ i : ℕ, i < 81 →
      ((mkSudoku startpos nm).points.getD i pdef).row = i / 9 ∧
      ((mkSudoku startpos nm).points.getD i pdef).col = i % 9 ∧
      ((mkSudoku startpos nm).points.getD i pdef).value =
        (if startpos = ⟨[]⟩ then (if i = 4 + 9 * 4 then 1 else 0)
         else if startpos.toList.getD i ' ' ∈ digitChars then
           (startpos.toList.getD i ' ').toNat - 48 else 0)) := by
  refine ⟨mkSudoku_points_length startpos nm, ?_⟩
  intro i hi
  rw [mkSudoku_points_getD startpos nm i hi]
  refine ⟨rfl, rfl, ?_⟩
  by_cases hs : startpos = ⟨[]⟩
  · simp [hs]
  · rw [if_neg hs, if_neg hs, padTo81_getD startpos i hi, charValue]

/-- Demonstration starting string for the construction claims. -/
def c8str : String := "53..7"

theorem C8_construction_witness :
    (mkSudoku c8str c8str).points.length = 81 ∧
    ((mkSudoku c8str c8str).points.getD 0 pdef).value = 5 := by
  refine ⟨(C8_construction c8str c8str).1, ?_⟩
  have h := ((C8_construction c8str c8str).2 0 (by decide)).2.2
  rw [h]
  decide

/-- C10: a starting string longer than 81 characters is used only through its first 81
characters: padding to width 81 leaves it unchanged (never truncates), and the
constructed cells coincide with those built from the 81-character prefix. -/
theorem C10_prefix_only (str nm : String) (h : 81 < str.length) :
    padTo81 str = str.toList ∧
    (mkSudoku str nm).points = (mkSudoku ⟨str.toList.take 81⟩ nm).points := by
  have hd : str.length = str.toList.length := rfl
  have hpad : padTo81 str = str.toList := by
    unfold padTo81
    rw [Nat.sub_eq_zero_of_le (le_of_lt h), List.replicate_zero, List.append_nil]
  refine ⟨hpad, ?_⟩
  have hne1 : str ≠ ⟨[]⟩ := by
    intro heq
    rw [heq] at h
    simp at h
  have hne2 : (⟨str.toList.take 81⟩ : String) ≠ ⟨[]⟩ := by
    intro heq
    have := congrArg String.toList heq
    have hlen := congrArg List.length this
    simp only [String.toList] at hlen
    rw [List.length_take] at hlen
    simp at hlen
    omega
  apply List.ext_getElem
  · rw [mkSudoku_points_length, mkSudoku_points_length]
  · intro i h1 h2
    have hi : i < 81 := by
      rw [mkSudoku_points_length] at h1
      exact h1
    have g1 : (mkSudoku str nm).points[i] = (mkSudoku str nm).points.getD i pdef := by
      rw [List.getD_eq_getElem?_getD, List.getElem?_eq_getElem h1]
      rfl
    have g2 : (mkSudoku ⟨str.toList.take 81⟩ nm).points[i] =
        (mkSudoku ⟨str.toList.take 81⟩ nm).points.getD i pdef := by
      rw [List.getD_eq_getElem?_getD, List.getElem?_eq_getElem h2]
      rfl
    rw [g1, g2, mkSudoku_points_getD str nm i hi, mkSudoku_points_getD ⟨str.toList.take 81⟩ nm i hi,
      if_neg hne1, if_neg hne2]
    rw [padTo81_getD str i hi, padTo81_getD ⟨str.toList.take 81⟩ i hi]
    have : (⟨str.toList.take 81⟩ : String).toList.getD i ' ' = str.toList.getD i ' ' := by
      rw [List.getD_eq_getElem?_getD, List.getD_eq_getElem?_getD]
      show (str.toList.take 81)[i]?.getD ' ' = str.toList[i]?.getD ' '
      rw [List.getElem?_take_of_lt hi]
    rw [this]

/-- Demonstration string of length 90 for the long-string claim. -/
def longDemoStr : String := ⟨List.replicate 90 '7'⟩

theorem C10_prefix_only_witness :
    padTo81 longDemoStr = longDemoStr.toList ∧
    (mkSudoku longDemoStr c8str).points = (mkSudoku ⟨longDemoStr.toList.take 81⟩ c8str).points := by
  exact C10_prefix_only longDemoStr c8str (by decide)

/-! ### Guess tags (claim C6) and the search-phase dead end (claim C9) -/

/-- C6: evaluation of the guess-provenance tag table at the failing input: the source
literal 'abcedfghijk' swaps the alphabetical 'd' and 'e', so the 4th guess attempt at a
cell (three values already failed there) is tagged 'e' and the 5th is tagged 'd', while
the first three attempts do get 'a', 'b', 'c'; the table has 11 entries. -/
theorem C6_tag_table :
    guessTags.getD 0 '?' = 'a' ∧ guessTags.getD 1 '?' = 'b' ∧ guessTags.getD 2 '?' = 'c' ∧
    guessTags.getD 3 '?' = 'e' ∧ guessTags.getD 4 '?' = 'd' ∧ guessTags.length = 11 := by
  decide

/-- C9: in the search phase, when the selected most-constrained unset cell has an empty
available-set, the loop returns failure immediately: no assignment is made, no failure is
recorded, the statistics are returned unchanged, and (the embedding being a total
function) no exception escapes the search. -/
theorem C9_empty_available_fails (pick : Finset ℕ → ℕ) (dflag : Bool) (f : ℕ) (s : Sudoku)
    (level : ℕ) (st : Stats) (h1 : s.todo ≠ []) (h2 : s.available (s.todo.headD pdef) = ∅) :
    solveGuess pick dflag (f + 1) s level st = some (.failure, st) := by
  have h2a : s.available (s.todo.head?.getD pdef) = ∅ := by
    simpa [List.headD_eq_head?] using h2
  simp [solveGuess, h1, h2a]

/-- Demonstration board for the dead-end claim: row 0 holds 1-8 with its last cell open,
while a 9 placed at (1,8) and ones everywhere below leave that cell with no candidate. -/
def c9str : String := "12345678.........9111111111111111111111111111111111111111111111111111111111111111111"

theorem C9_empty_available_fails_witness :
    solveGuess pickOne true 1 (mkSudoku c9str c8str) 0 initStats = some (.failure, initStats) := by
  apply C9_empty_available_fails pickOne true 0 (mkSudoku c9str c8str) 0 initStats
  · decide
  · decide

/-! ### Cache soundness and reachable boards (claims C2 and C4) -/

/-- Cache soundness: every cell's cached availability set is empty or is exactly the fresh
recomputation for that (unset) cell. -/
def goodCache (s : Sudoku) : Prop :=
  ∀ p ∈ s.points, p.avcache = ∅ ∨ (p.value = 0 ∧ p.avcache = s.availFresh p)

theorem filter_map_value (l : List Point) (f : Point → Point) (pr : Point → Bool)
    (hpr : ∀ p ∈ l, pr (f p) = pr p) (hv : ∀ p ∈ l, (f p).value = p.value) :
    ((l.map f).filter pr).map (fun q => q.value) = (l.filter pr).map (fun q => q.value) := by
  rw [List.filter_map, List.map_map]
  have h1 : List.filter (pr ∘ f) l = List.filter pr l := by
    apply List.filter_congr
    intro p hp
    exact hpr p hp
  rw [h1]
  apply List.map_congr_left
  intro p hp
  show (f p).value = p.value
  exact hv p (List.mem_filter.mp hp).1

/-- Point rewrites preserving position and value leave every on-row/on-column/in-block
scan unchanged (those scans never read a scanned cell's failed-set or cache). -/
def corePreserving (f : Point → Point) : Prop :=
  ∀ p, (f p).row = p.row ∧ (f p).col = p.col ∧ (f p).value = p.value

theorem onrow_map (s : Sudoku) (f : Point → Point) (hf : corePreserving f) (q : Point) :
    Sudoku.onrow { s with points := s.points.map f } q = s.onrow q := by
  unfold Sudoku.onrow
  congr 1
  apply filter_map_value
  · intro p _
    rcases hf p with ⟨h1, _, h3⟩
    simp [h1, h3]
  · intro p _
    exact (hf p).2.2

theorem oncol_map (s : Sudoku) (f : Point → Point) (hf : corePreserving f) (q : Point) :
    Sudoku.oncol { s with points := s.points.map f } q = s.oncol q := by
  unfold Sudoku.oncol
  congr 1
  apply filter_map_value
  · intro p _
    rcases hf p with ⟨_, h2, h3⟩
    simp [h2, h3]
  · intro p _
    exact (hf p).2.2

theorem in3x3_map (s : Sudoku) (f : Point → Point) (hf : corePreserving f) (q : Point) :
    Sudoku.in3x3 { s with points := s.points.map f } q = s.in3x3 q := by
  unfold Sudoku.in3x3
  congr 1
  apply filter_map_value
  · intro p _
    rcases hf p with ⟨h1, h2, h3⟩
    simp [Point.bigrow, Point.bigcol, h1, h2, h3]
  · intro p _
    exact (hf p).2.2

theorem availFresh_map (s : Sudoku) (f : Point → Point) (hf : corePreserving f) (q : Point) :
    Sudoku.availFresh { s with points := s.points.map f } q = s.availFresh q := by
  unfold Sudoku.availFresh Sudoku.used
  rw [onrow_map s f hf q, oncol_map s f hf q, in3x3_map s f hf q]

theorem goodCache_of_empty (s : Sudoku) (h : ∀ p ∈ s.points, p.avcache = ∅) :
    goodCache s := by
  intro p hp
  exact Or.inl (h p hp)

theorem setpoint_cache_empty (s : Sudoku) (t : Point) (v : ℕ) (tag : Char) :
    ∀ p ∈ (s.setpoint t v tag).points, p.avcache = ∅ := by
  intro p hp
  unfold Sudoku.setpoint Sudoku.clearcache at hp
  simp only [List.mem_map] at hp
  obtain ⟨q, _, rfl⟩ := hp
  rfl

theorem failed_cache_empty (s : Sudoku) (t : Point) (v : ℕ) :
    ∀ p ∈ (s.failed t v).points, p.avcache = ∅ := by
  intro p hp
  unfold Sudoku.failed Sudoku.clearcache at hp
  simp only [List.mem_map] at hp
  obtain ⟨q, _, rfl⟩ := hp
  rfl

theorem setpoint_goodCache (s : Sudoku) (t : Point) (v : ℕ) (tag : Char) :
    goodCache (s.setpoint t v tag) :=
  goodCache_of_empty _ (setpoint_cache_empty s t v tag)

theorem failed_goodCache (s : Sudoku) (t : Point) (v : ℕ) :
    goodCache (s.failed t v) :=
  goodCache_of_empty _ (failed_cache_empty s t v)

theorem fillcache_corePreserving (s : Sudoku) (t : Point) :
    corePreserving (fun p =>
      if p.row = t.row ∧ p.col = t.col ∧ p.value = 0 ∧ p.avcache = ∅ then
        { p with avcache := s.availFresh p } else p) := by
  intro p
  by_cases h : p.row = t.row ∧ p.col = t.col ∧ p.value = 0 ∧ p.avcache = ∅ <;>
    simp [h]

theorem availFresh_avcache_irrel (s : Sudoku) (p : Point) (c : Finset ℕ) :
    s.availFresh { p with avcache := c } = s.availFresh p := rfl

theorem fillcache_goodCache (s : Sudoku) (t : Point) (h : goodCache s) :
    goodCache (s.fillcache t) := by
  have hfresh : ∀ x, Sudoku.availFresh (s.fillcache t) x = s.availFresh x := by
    intro x
    unfold Sudoku.fillcache
    exact availFresh_map s _ (fillcache_corePreserving s t) x
  intro p hp
  rw [hfresh p]
  unfold Sudoku.fillcache at hp
  simp only [List.mem_map] at hp
  obtain ⟨q, hq, rfl⟩ := hp
  by_cases hc : q.row = t.row ∧ q.col = t.col ∧ q.value = 0 ∧ q.avcache = ∅
  · rw [if_pos hc]
    right
    constructor
    · show q.value = 0
      exact hc.2.2.1
    · show s.availFresh q = s.availFresh { q with avcache := s.availFresh q }
      exact (availFresh_avcache_irrel s q _).symm
  · rw [if_neg hc]
    exact h q hq

theorem initPoints_cache_empty : ∀ p ∈ initPoints, p.avcache = ∅ := by
  intro p hp
  unfold initPoints at hp
  simp only [List.mem_map] at hp
  obtain ⟨i, _, rfl⟩ := hp
  rfl

theorem mkSudoku_cache_empty (str nm : String) :
    ∀ p ∈ (mkSudoku str nm).points, p.avcache = ∅ := by
  intro p hp
  unfold mkSudoku at hp
  split at hp
  · simp only [List.mem_map] at hp
    obtain ⟨q, hq, rfl⟩ := hp
    exact initPoints_cache_empty q hq
  · rcases List.mem_or_eq_of_mem_set hp with h1 | h1
    · exact initPoints_cache_empty p h1
    · rw [h1]
      decide

theorem mkSudoku_goodCache (str nm : String) : goodCache (mkSudoku str nm) :=
  goodCache_of_empty _ (mkSudoku_cache_empty str nm)

/-- Mutation steps a board undergoes during solving: value assignment (`setpoint`),
failure recording (`failed`), the cache fill performed inside `available`, and deep
copying of the board (which under value semantics yields the very same board value). -/
inductive Evolves : Sudoku → Sudoku → Prop
  | refl (s : Sudoku) : Evolves s s
  | set (s0 s : Sudoku) (t : Point) (v : ℕ) (tag : Char) :
      Evolves s0 s → Evolves s0 (s.setpoint t v tag)
  | fail (s0 s : Sudoku) (t : Point) (v : ℕ) :
      Evolves s0 s → Evolves s0 (s.failed t v)
  | fill (s0 s : Sudoku) (t : Point) :
      Evolves s0 s → Evolves s0 (s.fillcache t)
  | copy (s0 s : Sudoku) : Evolves s0 s → Evolves s0 s

theorem evolves_goodCache (s0 s : Sudoku) (h0 : goodCache s0) (h : Evolves s0 s) :
    goodCache s := by
  induction h with
  | refl => exact h0
  | set s t v tag _ _ => exact setpoint_goodCache s t v tag
  | fail s t v _ _ => exact failed_goodCache s t v
  | fill s t _ ih => exact fillcache_goodCache s t ih
  | copy s _ ih => exact ih

theorem available_eq_fresh (s : Sudoku) (hgc : goodCache s) (p : Point) (hp : p ∈ s.points)
    (h0 : p.value = 0) : s.available p = s.availFresh p := by
  unfold Sudoku.available
  by_cases hce : p.avcache = ∅
  · rw [if_pos ⟨h0, hce⟩]
  · rw [if_neg (by tauto)]
    rcases hgc p hp with hc | ⟨_, hc⟩
    · exact absurd hc hce
    · exact hc

/-- C2: on every board reachable from a constructed board by any sequence of assignments,
failure recordings, cache fills and deep copies, `available` on an unset cell returns
exactly {1..9} minus the values on its row, on its column, in its 3x3 block and in its
failed-set, as recomputed from scratch — the cache can never be stale, because every
mutation clears the cache of every cell on the board. -/
theorem C2_available_is_fresh (str nm : String) (s : Sudoku)
    (h : Evolves (mkSudoku str nm) s) (p : Point) (hp : p ∈ s.points) (h0 : p.value = 0) :
    s.available p = Finset.Icc 1 9 \ (s.onrow p ∪ s.oncol p ∪ s.in3x3 p ∪ p.failed) := by
  rw [available_eq_fresh s (evolves_goodCache _ s (mkSudoku_goodCache str nm) h) p hp h0]
  unfold Sudoku.availFresh Sudoku.used
  have h9 : nineDigits = Finset.Icc 1 9 := by decide
  rw [h9]
  congr 1
  ext x
  simp only [Finset.mem_union]
  tauto

/-- Unset demonstration cell at row 0, column 2 of the board built from `c8str`. -/
def tP : Point := ⟨0, 2, 0, ∅, ∅, ' '⟩

/-- The same cell after `record_failure(tP, 3)`. -/
def tPfailed : Point := ⟨0, 2, 0, {3}, ∅, ' '⟩

theorem C2_available_is_fresh_witness :
    ((mkSudoku c8str c8str).failed tP 3).available tPfailed =
      Finset.Icc 1 9 \ (((mkSudoku c8str c8str).failed tP 3).onrow tPfailed ∪
          ((mkSudoku c8str c8str).failed tP 3).oncol tPfailed ∪
          ((mkSudoku c8str c8str).failed tP 3).in3x3 tPfailed ∪ tPfailed.failed) := by
  apply C2_available_is_fresh c8str c8str _
    (Evolves.fail _ _ tP 3 (Evolves.refl _))
  · decide
  · rfl

theorem setpoint_points (s : Sudoku) (t : Point) (v : ℕ) (tag : Char) :
    (s.setpoint t v tag).points = s.points.map (fun p =>
      if p.row = t.row ∧ p.col = t.col then ⟨p.row, p.col, v, p.failed, ∅, tag⟩
      else ⟨p.row, p.col, p.value, p.failed, ∅, p.src⟩) := by
  unfold Sudoku.setpoint Sudoku.clearcache
  simp only [List.map_map]
  apply List.map_congr_left
  intro p _
  by_cases h : p.row = t.row ∧ p.col = t.col <;> simp [h]

theorem failed_points (s : Sudoku) (t : Point) (v : ℕ) :
    (s.failed t v).points = s.points.map (fun p =>
      if p.row = t.row ∧ p.col = t.col then ⟨p.row, p.col, p.value, insert v p.failed, ∅, p.src⟩
      else ⟨p.row, p.col, p.value, p.failed, ∅, p.src⟩) := by
  unfold Sudoku.failed Sudoku.clearcache
  simp only [List.map_map]
  apply List.map_congr_left
  intro p _
  by_cases h : p.row = t.row ∧ p.col = t.col <;> simp [h]

theorem evolves_failed_persists (t : Point) (v : ℕ) (s2 s3 : Sudoku) (h : Evolves s2 s3)
    (hbase : ∀ q ∈ s2.points, q.row = t.row → q.col = t.col → v ∈ q.failed) :
    ∀ q ∈ s3.points, q.row = t.row → q.col = t.col → v ∈ q.failed := by
  induction h with
  | refl => exact hbase
  | set s t1 v1 tag _ ih =>
      intro q hq hr hc
      rw [setpoint_points] at hq
      simp only [List.mem_map] at hq
      obtain ⟨x, hx, rfl⟩ := hq
      by_cases hcond : x.row = t1.row ∧ x.col = t1.col
      · rw [if_pos hcond] at hr hc ⊢
        exact ih x hx hr hc
      · rw [if_neg hcond] at hr hc ⊢
        exact ih x hx hr hc
  | fail s t1 v1 _ ih =>
      intro q hq hr hc
      rw [failed_points] at hq
      simp only [List.mem_map] at hq
      obtain ⟨x, hx, rfl⟩ := hq
      by_cases hcond : x.row = t1.row ∧ x.col = t1.col
      · rw [if_pos hcond] at hr hc ⊢
        exact Finset.mem_insert_of_mem (ih x hx hr hc)
      · rw [if_neg hcond] at hr hc ⊢
        exact ih x hx hr hc
  | fill s t1 _ ih =>
      intro q hq hr hc
      unfold Sudoku.fillcache at hq
      simp only [List.mem_map] at hq
      obtain ⟨x, hx, rfl⟩ := hq
      by_cases hcond : x.row = t1.row ∧ x.col = t1.col ∧ x.value = 0 ∧ x.avcache = ∅
      · rw [if_pos hcond] at hr hc ⊢
        exact ih x hx hr hc
      · rw [if_neg hcond] at hr hc ⊢
        exact ih x hx hr hc
  | copy s _ ih => exact ih

theorem failed_base (s : Sudoku) (t : Point) (v : ℕ) :
    ∀ q ∈ (s.failed t v).points, q.row = t.row → q.col = t.col → v ∈ q.failed := by
  intro q hq hr hc
  rw [failed_points] at hq
  simp only [List.mem_map] at hq
  obtain ⟨x, hx, rfl⟩ := hq
  by_cases hcond : x.row = t.row ∧ x.col = t.col
  · rw [if_pos hcond]
    exact Finset.mem_insert_self v x.failed
  · exfalso
    rw [if_neg hcond] at hr hc
    exact hcond ⟨hr, hc⟩

/-- C4: once `record_failure(cell, v)` has been performed, `available(cell)` never again
contains `v` on that board, nor on any board obtained from it afterwards by assignments,
further failure recordings, cache fills or deep copies. -/
theorem C4_failure_persists (s1 : Sudoku) (t : Point) (v : ℕ) (s3 : Sudoku)
    (h : Evolves (s1.failed t v) s3) (q : Point) (hq : q ∈ s3.points)
    (hr : q.row = t.row) (hc : q.col = t.col) : v ∉ s3.available q := by
  have hgc : goodCache s3 := evolves_goodCache _ s3 (failed_goodCache s1 t v) h
  have hfp : v ∈ q.failed := evolves_failed_persists t v _ s3 h (failed_base s1 t v) q hq hr hc
  have hnf : v ∉ s3.availFresh q := by
    unfold Sudoku.availFresh Sudoku.used
    intro hmem
    rw [Finset.mem_sdiff] at hmem
    exact hmem.2 (by simp only [Finset.mem_union]; tauto)
  unfold Sudoku.available
  split
  · exact hnf
  · rcases hgc q hq with hc0 | ⟨_, hcf⟩
    · rw [hc0]
      exact Finset.not_mem_empty v
    · rw [hcf]
      exact hnf

theorem C4_failure_persists_witness :
    3 ∉ ((mkSudoku c8str c8str).failed tP 3).available tPfailed := by
  apply C4_failure_persists (mkSudoku c8str c8str) tP 3 _ (Evolves.refl _) tPfailed
  · decide
  · rfl
  · rfl

/-! ### Board layout and the deduction formula (claim C3) -/

/-- Row-major positions of the 81 cells as built by the constructor. -/
def boardPositions : List (ℕ × ℕ) := (List.range 81).map (fun i => (i / 9, i % 9))

/-- The board's cells sit at the 81 standard positions, in row-major order. -/
def layout (s : Sudoku) : Prop :=
  s.points.map (fun p => (p.row, p.col)) = boardPositions

theorem mkSudoku_layout (str nm : String) : layout (mkSudoku str nm) := by
  unfold layout mkSudoku
  split
  · rw [List.map_map]
    unfold initPoints boardPositions
    rw [List.map_map]
    rfl
  · rw [List.map_set]
    unfold initPoints boardPositions
    rw [List.map_map]
    show (List.map _ (List.range 81)).set 40 (4, 4) = _
    decide

theorem layout_setpoint (s : Sudoku) (t : Point) (v : ℕ) (tag : Char) (h : layout s) :
    layout (s.setpoint t v tag) := by
  unfold layout at h ⊢
  rw [setpoint_points, List.map_map, ← h]
  apply List.map_congr_left
  intro p _
  by_cases hc : p.row = t.row ∧ p.col = t.col <;> simp [hc]

theorem layout_failed (s : Sudoku) (t : Point) (v : ℕ) (h : layout s) :
    layout (s.failed t v) := by
  unfold layout at h ⊢
  rw [failed_points, List.map_map, ← h]
  apply List.map_congr_left
  intro p _
  by_cases hc : p.row = t.row ∧ p.col = t.col <;> simp [hc]

theorem layout_fillcache (s : Sudoku) (t : Point) (h : layout s) :
    layout (s.fillcache t) := by
  unfold layout at h ⊢
  unfold Sudoku.fillcache
  rw [List.map_map, ← h]
  apply List.map_congr_left
  intro p _
  by_cases hc : p.row = t.row ∧ p.col = t.col ∧ p.value = 0 ∧ p.avcache = ∅ <;> simp [hc]

theorem evolves_layout (s0 s : Sudoku) (h0 : layout s0) (h : Evolves s0 s) : layout s := by
  induction h with
  | refl => exact h0
  | set s t v tag _ ih => exact layout_setpoint s t v tag ih
  | fail s t v _ ih => exact layout_failed s t v ih
  | fill s t _ ih => exact layout_fillcache s t ih
  | copy s _ ih => exact ih

theorem posNodup_of_layout (s : Sudoku) (h : layout s) :
    (s.points.map (fun p => (p.row, p.col))).Nodup := by
  rw [h]
  decide

/-- Union of the availability sets of the points of a list. -/
def unionAvail (s : Sudoku) (l : List Point) : Finset ℕ :=
  l.foldr (fun p acc => s.available p ∪ acc) ∅

/-- Specification-side `deduce_row`: union of the availability sets of every other unset
cell sharing the point's row. -/
def deduceRowSpec (s : Sudoku) (point : Point) : Finset ℕ :=
  unionAvail s (s.points.filter (fun p => decide (point ≠ p ∧ p.value = 0 ∧ point.row = p.row)))

/-- Specification-side `deduce_col`: union of the availability sets of every other unset
cell sharing the point's column. -/
def deduceColSpec (s : Sudoku) (point : Point) : Finset ℕ :=
  unionAvail s (s.points.filter (fun p => decide (point ≠ p ∧ p.value = 0 ∧ point.col = p.col)))

/-- Specification-side statement of the deduction result (claim C3): the difference of the
point's availability and `deduce_row` when it is a singleton, else the difference with
`deduce_col` when that is a singleton, else empty. -/
def deduceSpec (s : Sudoku) (point : Point) : Finset ℕ :=
  if (s.available point \ deduceRowSpec s point).card = 1 then
    s.available point \ deduceRowSpec s point
  else if (s.available point \ deduceColSpec s point).card = 1 then
    s.available point \ deduceColSpec s point
  else ∅

theorem deduce_fold (s : Sudoku) (point : Point) :
    ∀ (l : List Point) (a b : Finset ℕ),
    (∀ p ∈ l, point ≠ p → p.value = 0 → point.col = p.col → point.row ≠ p.row) →
    l.foldl (fun (acc : Finset ℕ × Finset ℕ) p =>
      if point ≠ p ∧ p.value = 0 then
        if point.row = p.row then (acc.1 ∪ s.available p, acc.2)
        else if point.col = p.col then (acc.1, acc.2 ∪ s.available p)
        else acc
      else acc) (a, b) =
      (a ∪ unionAvail s (l.filter (fun p => decide (point ≠ p ∧ p.value = 0 ∧ point.row = p.row))),
       b ∪ unionAvail s (l.filter (fun p => decide (point ≠ p ∧ p.value = 0 ∧ point.col = p.col)))) := by
  intro l
  induction l with
  | nil =>
      intro a b _
      simp [unionAvail]
  | cons p l ih =>
      intro a b hcross
      have hcross2 : ∀ q ∈ l, point ≠ q → q.value = 0 → point.col = q.col → point.row ≠ q.row :=
        fun q hq => hcross q (List.mem_cons_of_mem p hq)
      rw [List.foldl_cons]
      by_cases h1 : point ≠ p ∧ p.value = 0
      · by_cases h2 : point.row = p.row
        · have hcolneg : ¬(point ≠ p ∧ p.value = 0 ∧ point.col = p.col) := by
            rintro ⟨hne, hv, hcol⟩
            exact hcross p (List.mem_cons_self p l) hne hv hcol h2
          rw [if_pos h1, if_pos h2]
          rw [List.filter_cons_of_pos (by simp [h1.1, h1.2, h2]),
            List.filter_cons_of_neg (by simpa using hcolneg)]
          rw [ih (a ∪ s.available p) b hcross2]
          show (_ ∪ _, _) = (a ∪ (s.available p ∪ _), _)
          rw [Finset.union_assoc]
          rfl
        · by_cases h3 : point.col = p.col
          · rw [if_pos h1, if_neg h2, if_pos h3]
            rw [List.filter_cons_of_neg (by simp [h2]),
              List.filter_cons_of_pos (by simp [h1.1, h1.2, h3])]
            rw [ih a (b ∪ s.available p) hcross2]
            show (_, _ ∪ _) = (_, b ∪ (s.available p ∪ _))
            rw [Finset.union_assoc]
            rfl
          · rw [if_pos h1, if_neg h2, if_neg h3]
            rw [List.filter_cons_of_neg (by simp [h2]),
              List.filter_cons_of_neg (by simp [h3])]
            exact ih a b hcross2
      · rw [if_neg h1]
        rw [List.filter_cons_of_neg (by simp only [decide_eq_true_eq]; tauto),
          List.filter_cons_of_neg (by simp only [decide_eq_true_eq]; tauto)]
        exact ih a b hcross2

/-- C3: on a reachable board, for a cell of the board, `deduce` returns `A - deduce_row`
when that difference has exactly one element, else `A - deduce_col` when that difference
has exactly one element, else the empty set, where `A` is the cell's availability set and
`deduce_row` (resp. `deduce_col`) is the union of the availability sets of every other
unset cell sharing the cell's row (resp. column); every other unset cell feeds at most one
of the two accumulators, row taking precedence, and on a board with its 81 distinct
positions a cell sharing both row and column would be the cell itself, so the
column accumulator is exactly the column-sharing union. -/
theorem C3_deduce_formula (str nm : String) (s : Sudoku)
    (h : Evolves (mkSudoku str nm) s) (point : Point) (hp : point ∈ s.points) :
    s.deduce point = deduceSpec s point := by
  have hlay : layout s := evolves_layout _ _ (mkSudoku_layout str nm) h
  have hnd := posNodup_of_layout s hlay
  have hcross : ∀ p ∈ s.points, point ≠ p → p.value = 0 → point.col = p.col →
      point.row ≠ p.row := by
    intro p hmem hne _ hcol hrow
    exact hne (List.inj_on_of_nodup_map hnd hp hmem (by rw [hrow, hcol]))
  unfold Sudoku.deduce deduceSpec
  rw [deduce_fold s point s.points ∅ ∅ hcross]
  simp only [Finset.empty_union]
  rfl

theorem C3_deduce_formula_witness :
    (mkSudoku c8str c8str).deduce tP = deduceSpec (mkSudoku c8str c8str) tP := by
  apply C3_deduce_formula c8str c8str _ (Evolves.refl _) tP
  decide

/-! ### Ordering of the todo list (claim C7) -/

/-- C7: `todo` returns exactly the cells with value 0 (as a permutation of the value-0
filter of the cell list), sorted ascending by the size of their availability sets; the
sort is stable: for every size k, the unset cells of availability size k occur in `todo`
as a sublist in their original order, and on a standard-layout board the original cell
order is strictly increasing in row-major position `9*row + col`. -/
theorem C7_todo_sorted_stable (s : Sudoku) (hlay : layout s) :
    s.todo.Perm (s.points.filter (fun p => decide (p.value = 0))) ∧
    s.todo.Pairwise (fun p q => (s.available p).card ≤ (s.available q).card) ∧
    (∀ k : ℕ, List.Sublist (s.points.filter
        (fun p => decide (p.value = 0 ∧ (s.available p).card = k))) s.todo) ∧
    s.points.Pairwise (fun p q => 9 * p.row + p.col < 9 * q.row + q.col) := by
  haveI h1 : IsTotal Point (fun p q => (s.available p).card ≤ (s.available q).card) :=
    ⟨fun a b => Nat.le_total _ _⟩
  haveI h2 : IsTrans Point (fun p q => (s.available p).card ≤ (s.available q).card) :=
    ⟨fun a b c => Nat.le_trans⟩
  refine ⟨List.perm_insertionSort _ _, List.sorted_insertionSort _ _, ?_, ?_⟩
  · intro k
    have hsplit : s.points.filter (fun p => decide (p.value = 0 ∧ (s.available p).card = k)) =
        (s.points.filter (fun p => decide (p.value = 0))).filter
          (fun p => decide ((s.available p).card = k)) := by
      rw [List.filter_filter]
      apply List.filter_congr
      intro p _
      simp [decide_eq_true_eq, Bool.and_comm]
    rw [hsplit]
    apply List.sublist_insertionSort
    · apply List.pairwise_of_forall_mem_list
      intro a ha b hb
      have hak := (List.mem_filter.mp ha).2
      have hbk := (List.mem_filter.mp hb).2
      simp only [decide_eq_true_eq] at hak hbk
      omega
    · exact List.filter_sublist _
  · have hbp : boardPositions.Pairwise (fun a b => 9 * a.1 + a.2 < 9 * b.1 + b.2) := by
      decide
    have := hlay ▸ hbp
    rw [List.pairwise_map] at this
    exact this

theorem C7_todo_sorted_stable_witness :
    (mkSudoku c8str c8str).todo.Perm
      ((mkSudoku c8str c8str).points.filter (fun p => decide (p.value = 0))) ∧
    List.Sublist ((mkSudoku c8str c8str).points.filter (fun p =>
      decide (p.value = 0 ∧ (Sudoku.available (mkSudoku c8str c8str) p).card = 5)))
        (mkSudoku c8str c8str).todo :=
  ⟨(C7_todo_sorted_stable (mkSudoku c8str c8str) (mkSudoku_layout c8str c8str)).1,
    (C7_todo_sorted_stable (mkSudoku c8str c8str) (mkSudoku_layout c8str c8str)).2.2.1 5⟩

/-! ### The solver invariant (claims C1 and C5) -/

/-- The cell rewrite performed by `setpoint` on each stored cell. -/
def setfn (t : Point) (v : ℕ) (tag : Char) (p : Point) : Point :=
  if p.row = t.row ∧ p.col = t.col then ⟨p.row, p.col, v, p.failed, ∅, tag⟩
  else ⟨p.row, p.col, p.value, p.failed, ∅, p.src⟩

/-- The cell rewrite performed by `failed` on each stored cell. -/
def failfn (t : Point) (v : ℕ) (p : Point) : Point :=
  if p.row = t.row ∧ p.col = t.col then ⟨p.row, p.col, p.value, insert v p.failed, ∅, p.src⟩
  else ⟨p.row, p.col, p.value, p.failed, ∅, p.src⟩

theorem setpoint_points2 (s : Sudoku) (t : Point) (v : ℕ) (tag : Char) :
    (s.setpoint t v tag).points = s.points.map (setfn t v tag) :=
  setpoint_points s t v tag

theorem failed_points2 (s : Sudoku) (t : Point) (v : ℕ) :
    (s.failed t v).points = s.points.map (failfn t v) :=
  failed_points s t v

@[simp] theorem setfn_row (t : Point) (v : ℕ) (tag : Char) (p : Point) :
    (setfn t v tag p).row = p.row := by
  unfold setfn
  by_cases h : p.row = t.row ∧ p.col = t.col <;> simp [h]

@[simp] theorem setfn_col (t : Point) (v : ℕ) (tag : Char) (p : Point) :
    (setfn t v tag p).col = p.col := by
  unfold setfn
  by_cases h : p.row = t.row ∧ p.col = t.col <;> simp [h]

@[simp] theorem setfn_failed (t : Point) (v : ℕ) (tag : Char) (p : Point) :
    (setfn t v tag p).failed = p.failed := by
  unfold setfn
  by_cases h : p.row = t.row ∧ p.col = t.col <;> simp [h]

theorem setfn_value_pos (t : Point) (v : ℕ) (tag : Char) (p : Point)
    (h : p.row = t.row ∧ p.col = t.col) : (setfn t v tag p).value = v := by
  unfold setfn
  rw [if_pos h]

theorem setfn_value_neg (t : Point) (v : ℕ) (tag : Char) (p : Point)
    (h : ¬(p.row = t.row ∧ p.col = t.col)) : (setfn t v tag p).value = p.value := by
  unfold setfn
  rw [if_neg h]

@[simp] theorem failfn_row (t : Point) (v : ℕ) (p : Point) : (failfn t v p).row = p.row := by
  unfold failfn
  by_cases h : p.row = t.row ∧ p.col = t.col <;> simp [h]

@[simp] theorem failfn_col (t : Point) (v : ℕ) (p : Point) : (failfn t v p).col = p.col := by
  unfold failfn
  by_cases h : p.row = t.row ∧ p.col = t.col <;> simp [h]

@[simp] theorem failfn_value (t : Point) (v : ℕ) (p : Point) :
    (failfn t v p).value = p.value := by
  unfold failfn
  by_cases h : p.row = t.row ∧ p.col = t.col <;> simp [h]

@[simp] theorem setfn_bigrow (t : Point) (v : ℕ) (tag : Char) (p : Point) :
    (setfn t v tag p).bigrow = p.bigrow := by
  unfold Point.bigrow
  rw [setfn_row]

@[simp] theorem setfn_bigcol (t : Point) (v : ℕ) (tag : Char) (p : Point) :
    (setfn t v tag p).bigcol = p.bigcol := by
  unfold Point.bigcol
  rw [setfn_col]

theorem mem_onrow (s : Sudoku) (q : Point) (w : ℕ) :
    w ∈ s.onrow q ↔ ∃ x ∈ s.points, x.value ≠ 0 ∧ x.row = q.row ∧ x.value = w := by
  unfold Sudoku.onrow
  simp only [List.mem_toFinset, List.mem_map, List.mem_filter, decide_eq_true_eq]
  constructor
  · rintro ⟨x, ⟨hx, h1, h2⟩, h3⟩
    exact ⟨x, hx, h1, h2, h3⟩
  · rintro ⟨x, hx, h1, h2, h3⟩
    exact ⟨x, ⟨hx, h1, h2⟩, h3⟩

theorem mem_oncol (s : Sudoku) (q : Point) (w : ℕ) :
    w ∈ s.oncol q ↔ ∃ x ∈ s.points, x.value ≠ 0 ∧ x.col = q.col ∧ x.value = w := by
  unfold Sudoku.oncol
  simp only [List.mem_toFinset, List.mem_map, List.mem_filter, decide_eq_true_eq]
  constructor
  · rintro ⟨x, ⟨hx, h1, h2⟩, h3⟩
    exact ⟨x, hx, h1, h2, h3⟩
  · rintro ⟨x, hx, h1, h2, h3⟩
    exact ⟨x, ⟨hx, h1, h2⟩, h3⟩

theorem mem_in3x3 (s : Sudoku) (q : Point) (w : ℕ) :
    w ∈ s.in3x3 q ↔
      ∃ x ∈ s.points, x.value ≠ 0 ∧ x.bigrow = q.bigrow ∧ x.bigcol = q.bigcol ∧ x.value = w := by
  unfold Sudoku.in3x3
  simp only [List.mem_toFinset, List.mem_map, List.mem_filter, decide_eq_true_eq]
  constructor
  · rintro ⟨x, ⟨hx, h1, h2, h3⟩, h4⟩
    exact ⟨x, hx, h1, h2, h3, h4⟩
  · rintro ⟨x, hx, h1, h2, h3, h4⟩
    exact ⟨x, ⟨hx, h1, h2, h3⟩, h4⟩

theorem onrow_arg (s : Sudoku) (q r : Point) (h : q.row = r.row) : s.onrow q = s.onrow r := by
  unfold Sudoku.onrow
  rw [h]

theorem oncol_arg (s : Sudoku) (q r : Point) (h : q.col = r.col) : s.oncol q = s.oncol r := by
  unfold Sudoku.oncol
  rw [h]

theorem in3x3_arg (s : Sudoku) (q r : Point) (h1 : q.bigrow = r.bigrow)
    (h2 : q.bigcol = r.bigcol) : s.in3x3 q = s.in3x3 r := by
  unfold Sudoku.in3x3
  rw [h1, h2]

theorem mem_availFresh_facts (s : Sudoku) (t : Point) (v : ℕ) (hv : v ∈ s.availFresh t) :
    (1 ≤ v ∧ v ≤ 9) ∧ v ∉ s.onrow t ∧ v ∉ s.oncol t ∧ v ∉ s.in3x3 t ∧ v ∉ t.failed := by
  unfold Sudoku.availFresh Sudoku.used at hv
  rw [Finset.mem_sdiff] at hv
  obtain ⟨h1, h2⟩ := hv
  simp only [Finset.mem_union, not_or] at h2
  refine ⟨?_, h2.1.1.2, h2.1.1.1, h2.1.2, h2.2⟩
  have : v ∈ nineDigits := h1
  unfold nineDigits at this
  simp only [Finset.mem_insert, Finset.mem_singleton] at this
  omega

theorem length_of_layout (s : Sudoku) (h : layout s) : s.points.length = 81 := by
  have hl := congrArg List.length h
  simpa [boardPositions] using hl

theorem pos_inj (s : Sudoku) (hlay : layout s) (x : Point) (hx : x ∈ s.points) (y : Point)
    (hy : y ∈ s.points) (hr : x.row = y.row) (hc : x.col = y.col) : x = y :=
  List.inj_on_of_nodup_map (posNodup_of_layout s hlay) hx hy (by rw [hr, hc])

/-- No value 1-9 occurs twice in any row, column or 3x3 block among set cells. -/
def conflictFree (s : Sudoku) : Prop :=
  ∀ p ∈ s.points, ∀ q ∈ s.points, (p.row, p.col) ≠ (q.row, q.col) → p.value ≠ 0 →
    p.value = q.value →
    p.row ≠ q.row ∧ p.col ≠ q.col ∧ (p.bigrow, p.bigcol) ≠ (q.bigrow, q.bigcol)

/-- Well-formedness invariant maintained by the solver: standard layout, values at most 9,
sound caches, and no duplicated value in any row/column/block. -/
def Inv (s : Sudoku) : Prop :=
  layout s ∧ (∀ p ∈ s.points, p.value ≤ 9) ∧ goodCache s ∧ conflictFree s

theorem setpoint_Inv (s : Sudoku) (t : Point) (v : ℕ) (tag : Char) (hInv : Inv s)
    (ht : t ∈ s.points) (ht0 : t.value = 0) (hv : v ∈ s.available t) :
    Inv (s.setpoint t v tag) := by
  obtain ⟨hlay, hle, hgc, hcf⟩ := hInv
  have hfresh : v ∈ s.availFresh t := by
    rw [← available_eq_fresh s hgc t ht ht0]
    exact hv
  obtain ⟨⟨hv1, hv9⟩, hnr, hnc, hnb, _⟩ := mem_availFresh_facts s t v hfresh
  refine ⟨layout_setpoint s t v tag hlay, ?_, setpoint_goodCache s t v tag, ?_⟩
  · intro p hp
    rw [setpoint_points2] at hp
    simp only [List.mem_map] at hp
    obtain ⟨x, hx, rfl⟩ := hp
    by_cases hcond : x.row = t.row ∧ x.col = t.col
    · rw [setfn_value_pos t v tag x hcond]
      exact hv9
    · rw [setfn_value_neg t v tag x hcond]
      exact hle x hx
  · intro p hp q hq hpos hp0 hpq
    rw [setpoint_points2] at hp hq
    simp only [List.mem_map] at hp hq
    obtain ⟨x, hx, rfl⟩ := hp
    obtain ⟨y, hy, rfl⟩ := hq
    simp only [setfn_row, setfn_col, setfn_bigrow, setfn_bigcol] at hpos ⊢
    by_cases hcx : x.row = t.row ∧ x.col = t.col
    · have hxt : x = t := pos_inj s hlay x hx t ht hcx.1 hcx.2
      by_cases hcy : y.row = t.row ∧ y.col = t.col
      · exact absurd (by rw [hcx.1, hcx.2, hcy.1, hcy.2]) hpos
      · rw [setfn_value_pos t v tag x hcx, setfn_value_neg t v tag y hcy] at hpq
        subst hxt
        refine ⟨?_, ?_, ?_⟩
        · intro hrow
          apply hnr
          rw [mem_onrow]
          exact ⟨y, hy, by omega, hrow.symm, hpq.symm⟩
        · intro hcol
          apply hnc
          rw [mem_oncol]
          exact ⟨y, hy, by omega, hcol.symm, hpq.symm⟩
        · intro hblk
          apply hnb
          rw [mem_in3x3]
          rw [Prod.mk.injEq] at hblk
          exact ⟨y, hy, by omega, hblk.1.symm, hblk.2.symm, hpq.symm⟩
    · rw [setfn_value_neg t v tag x hcx] at hpq hp0
      by_cases hcy : y.row = t.row ∧ y.col = t.col
      · have hyt : y = t := pos_inj s hlay y hy t ht hcy.1 hcy.2
        rw [setfn_value_pos t v tag y hcy] at hpq
        subst hyt
        refine ⟨?_, ?_, ?_⟩
        · intro hrow
          apply hnr
          rw [mem_onrow]
          exact ⟨x, hx, hp0, hrow, hpq⟩
        · intro hcol
          apply hnc
          rw [mem_oncol]
          exact ⟨x, hx, hp0, hcol, hpq⟩
        · intro hblk
          apply hnb
          rw [mem_in3x3]
          rw [Prod.mk.injEq] at hblk
          exact ⟨x, hx, hp0, hblk.1, hblk.2, hpq⟩
      · rw [setfn_value_neg t v tag y hcy] at hpq
        exact hcf x hx y hy hpos hp0 hpq

theorem failed_Inv (s : Sudoku) (t : Point) (v : ℕ) (hInv : Inv s) : Inv (s.failed t v) := by
  obtain ⟨hlay, hle, hgc, hcf⟩ := hInv
  refine ⟨layout_failed s t v hlay, ?_, failed_goodCache s t v, ?_⟩
  · intro p hp
    rw [failed_points2] at hp
    simp only [List.mem_map] at hp
    obtain ⟨x, hx, rfl⟩ := hp
    rw [failfn_value]
    exact hle x hx
  · intro p hp q hq hpos hp0 hpq
    rw [failed_points2] at hp hq
    simp only [List.mem_map] at hp hq
    obtain ⟨x, hx, rfl⟩ := hp
    obtain ⟨y, hy, rfl⟩ := hq
    simp only [failfn_row, failfn_col, failfn_value] at hpos hp0 hpq ⊢
    have hb : ∀ z : Point, (failfn t v z).bigrow = z.bigrow ∧ (failfn t v z).bigcol = z.bigcol := by
      intro z
      unfold Point.bigrow Point.bigcol
      rw [failfn_row, failfn_col]
      exact ⟨rfl, rfl⟩
    rw [(hb x).1, (hb x).2, (hb y).1, (hb y).2]
    exact hcf x hx y hy hpos hp0 hpq

theorem todo_head_mem (s : Sudoku) (h : s.todo ≠ []) :
    s.todo.headD pdef ∈ s.points ∧ (s.todo.headD pdef).value = 0 := by
  have hmem : s.todo.headD pdef ∈ s.todo := by
    cases htd : s.todo with
    | nil => exact absurd htd h
    | cons a l =>
        rw [List.headD_cons]
        exact List.mem_cons_self a l
  unfold Sudoku.todo at hmem
  rw [List.mem_insertionSort] at hmem
  rw [List.mem_filter] at hmem
  exact ⟨hmem.1, by simpa using hmem.2⟩

theorem deduced_head_mem (s : Sudoku) (h : s.deduced ≠ []) :
    s.deduced.headD pdef ∈ s.points ∧ (s.deduced.headD pdef).value = 0 ∧
      s.deduce (s.deduced.headD pdef) ≠ ∅ := by
  have hmem : s.deduced.headD pdef ∈ s.deduced := by
    cases htd : s.deduced with
    | nil => exact absurd htd h
    | cons a l =>
        rw [List.headD_cons]
        exact List.mem_cons_self a l
  unfold Sudoku.deduced at hmem
  rw [List.mem_filter] at hmem
  have h2 := hmem.2
  simp only [decide_eq_true_eq] at h2
  exact ⟨hmem.1, h2.1, h2.2.2⟩

theorem deduce_subset (s : Sudoku) (point : Point) :
    s.deduce point ⊆ s.available point := by
  unfold Sudoku.deduce
  by_cases h1 : (s.available point \
      (s.points.foldl (fun (acc : Finset ℕ × Finset ℕ) p =>
        if point ≠ p ∧ p.value = 0 then
          if point.row = p.row then (acc.1 ∪ s.available p, acc.2)
          else if point.col = p.col then (acc.1, acc.2 ∪ s.available p)
          else acc
        else acc) (∅, ∅)).1).card = 1
  · rw [if_pos h1]
    exact Finset.sdiff_subset
  · rw [if_neg h1]
    show (if _ then _ else _) ⊆ s.available point
    split
    · exact Finset.sdiff_subset
    · exact Finset.empty_subset _

theorem solve_zero (pick : Finset ℕ → ℕ) (dflag : Bool) (s : Sudoku) (level : ℕ)
    (st : Stats) : solve pick dflag 0 s level st = none := rfl

theorem solveKnown_zero (pick : Finset ℕ → ℕ) (dflag : Bool) (s : Sudoku) (level : ℕ)
    (st : Stats) : solveKnown pick dflag 0 s level st = none := rfl

theorem solveGuess_zero (pick : Finset ℕ → ℕ) (dflag : Bool) (s : Sudoku) (level : ℕ)
    (st : Stats) : solveGuess pick dflag 0 s level st = none := rfl

theorem solve_succ (pick : Finset ℕ → ℕ) (dflag : Bool) (f : ℕ) (s : Sudoku) (level : ℕ)
    (st : Stats) :
    solve pick dflag (f + 1) s level st =
      solveKnown pick dflag f s level { st with maxlevel := max st.maxlevel level } := rfl

theorem solveKnown_succ (pick : Finset ℕ → ℕ) (dflag : Bool) (f : ℕ) (s : Sudoku)
    (level : ℕ) (st : Stats) :
    solveKnown pick dflag (f + 1) s level st =
      (if s.todo ≠ [] ∧ ((s.available (s.todo.headD pdef)).card = 1 ∨
          (dflag ∧ s.deduced ≠ [])) then
        if (s.available (s.todo.headD pdef)).card = 1 then
          solveKnown pick dflag f
            (s.setpoint (s.todo.headD pdef) (pick (s.available (s.todo.headD pdef))) '=')
            level { st with thinks := st.thinks + 1 }
        else
          solveKnown pick dflag f
            (s.setpoint (s.deduced.headD pdef) (pick (s.deduce (s.deduced.headD pdef))) '*')
            level { st with deductions := st.deductions + 1 }
      else solveGuess pick dflag f s level st) := rfl

theorem solveGuess_succ (pick : Finset ℕ → ℕ) (dflag : Bool) (f : ℕ) (s : Sudoku)
    (level : ℕ) (st : Stats) :
    solveGuess pick dflag (f + 1) s level st =
      (if s.todo ≠ [] then
        if s.available (s.todo.headD pdef) ≠ ∅ then
          match solve pick dflag f
              (s.setpoint (s.todo.headD pdef) (pick (s.available (s.todo.headD pdef)))
                (guessTags.getD (s.todo.headD pdef).failed.card '?')) (level + 1)
              { st with guesses := st.guesses + 1 } with
          | none => none
          | some (.success b, st1) => some (.success b, st1)
          | some (.failure, st1) =>
              solveGuess pick dflag f
                (s.failed (s.todo.headD pdef) (pick (s.available (s.todo.headD pdef)))) level
                { st1 with fails := st1.fails + 1 }
        else some (.failure, st)
      else some (.success s, st)) := rfl

theorem solve_success_sound (pick : Finset ℕ → ℕ)
    (hpick : ∀ A : Finset ℕ, A.Nonempty → pick A ∈ A) (dflag : Bool) :
    ∀ f : ℕ,
      (∀ s level st b st2, Inv s →
        solve pick dflag f s level st = some (.success b, st2) → Inv b ∧ b.todo = []) ∧
      (∀ s level st b st2, Inv s →
        solveKnown pick dflag f s level st = some (.success b, st2) → Inv b ∧ b.todo = []) ∧
      (∀ s level st b st2, Inv s →
        solveGuess pick dflag f s level st = some (.success b, st2) → Inv b ∧ b.todo = []) := by
  intro f
  induction f with
  | zero =>
      refine ⟨?_, ?_, ?_⟩ <;> intro s level st b st2 _ h <;>
        simp [solve_zero, solveKnown_zero, solveGuess_zero] at h
  | succ f ih =>
      obtain ⟨ihS, ihK, ihG⟩ := ih
      refine ⟨?_, ?_, ?_⟩
      · intro s level st b st2 hInv h
        rw [solve_succ] at h
        exact ihK s level _ b st2 hInv h
      · intro s level st b st2 hInv h
        rw [solveKnown_succ] at h
        by_cases hcond : s.todo ≠ [] ∧ ((s.available (s.todo.headD pdef)).card = 1 ∨
            (dflag ∧ s.deduced ≠ []))
        · rw [if_pos hcond] at h
          by_cases hone : (s.available (s.todo.headD pdef)).card = 1
          · rw [if_pos hone] at h
            obtain ⟨htmem, ht0⟩ := todo_head_mem s hcond.1
            have hne : (s.available (s.todo.headD pdef)).Nonempty := by
              rw [← Finset.card_pos, hone]
              omega
            exact ihK _ level _ b st2
              (setpoint_Inv s _ _ '=' hInv htmem ht0 (hpick _ hne)) h
          · rw [if_neg hone] at h
            have hded : s.deduced ≠ [] := by
              rcases hcond.2 with hc | hc
              · exact absurd hc hone
              · exact hc.2
            obtain ⟨hdmem, hd0, hdne⟩ := deduced_head_mem s hded
            have hne : (s.deduce (s.deduced.headD pdef)).Nonempty :=
              Finset.nonempty_iff_ne_empty.mpr hdne
            have hpk : pick (s.deduce (s.deduced.headD pdef)) ∈
                s.available (s.deduced.headD pdef) :=
              deduce_subset s _ (hpick _ hne)
            exact ihK _ level _ b st2 (setpoint_Inv s _ _ '*' hInv hdmem hd0 hpk) h
        · rw [if_neg hcond] at h
          exact ihG s level st b st2 hInv h
      · intro s level st b st2 hInv h
        rw [solveGuess_succ] at h
        by_cases htd : s.todo ≠ []
        · rw [if_pos htd] at h
          by_cases hav : s.available (s.todo.headD pdef) ≠ ∅
          · rw [if_pos hav] at h
            obtain ⟨htmem, ht0⟩ := todo_head_mem s htd
            have hne : (s.available (s.todo.headD pdef)).Nonempty :=
              Finset.nonempty_iff_ne_empty.mpr hav
            have hInv2 := setpoint_Inv s _ (pick (s.available (s.todo.headD pdef)))
              (guessTags.getD (s.todo.headD pdef).failed.card '?')
              hInv htmem ht0 (hpick _ hne)
            cases hrec : solve pick dflag f
                (s.setpoint (s.todo.headD pdef) (pick (s.available (s.todo.headD pdef)))
                  (guessTags.getD (s.todo.headD pdef).failed.card '?')) (level + 1)
                { st with guesses := st.guesses + 1 } with
            | none =>
                rw [hrec] at h
                simp at h
            | some r =>
                rw [hrec] at h
                obtain ⟨res, st1⟩ := r
                cases res with
                | success b2 =>
                    simp only [Option.some.injEq, Prod.mk.injEq, SolveRes.success.injEq] at h
                    obtain ⟨hb2, hst1⟩ := h
                    rw [hb2, hst1] at hrec
                    exact ihS _ (level + 1) _ b st2 hInv2 hrec
                | failure =>
                    exact ihG _ level _ b st2 (failed_Inv s _ _ hInv) h
          · rw [if_neg hav] at h
            simp at h
        · rw [if_neg htd] at h
          simp only [Option.some.injEq, Prod.mk.injEq, SolveRes.success.injEq] at h
          obtain ⟨hb, _⟩ := h
          rw [← hb]
          rw [not_not] at htd
          exact ⟨hInv, htd⟩

/-- Specification-side validity of a finished board (claim C1): every cell holds a value
1-9, and every row, column and 3x3 block contains each value 1-9 exactly once. -/
def validBoard (s : Sudoku) : Prop :=
  (∀ p ∈ s.points, 1 ≤ p.value ∧ p.value ≤ 9) ∧
  (∀ r < 9, ∀ v : ℕ, 1 ≤ v → v ≤ 9 →
    (s.points.filter (fun p => decide (p.row = r ∧ p.value = v))).length = 1) ∧
  (∀ c < 9, ∀ v : ℕ, 1 ≤ v → v ≤ 9 →
    (s.points.filter (fun p => decide (p.col = c ∧ p.value = v))).length = 1) ∧
  (∀ br < 3, ∀ bc < 3, ∀ v : ℕ, 1 ≤ v → v ≤ 9 →
    (s.points.filter (fun p =>
      decide (p.bigrow = br ∧ p.bigcol = bc ∧ p.value = v))).length = 1)

theorem unit_values_once (s : Sudoku) (hnodup : s.points.Nodup)
    (hval : ∀ p ∈ s.points, 1 ≤ p.value ∧ p.value ≤ 9)
    (sel : Point → Bool)
    (hcard : (s.points.filter sel).length = 9)
    (hdistinct : ∀ x ∈ s.points, ∀ y ∈ s.points, sel x → sel y → x ≠ y → x.value ≠ y.value)
    (v : ℕ) (hv1 : 1 ≤ v) (hv9 : v ≤ 9) :
    (s.points.filter (fun p => sel p && decide (p.value = v))).length = 1 := by
  have hlrnodup : (s.points.filter sel).Nodup := List.Nodup.filter sel hnodup
  have hlvnodup : ((s.points.filter sel).map (fun p => p.value)).Nodup := by
    apply List.Nodup.map_on ?_ hlrnodup
    intro x hx y hy hxy
    by_contra hne
    have hxm := List.mem_filter.mp hx
    have hym := List.mem_filter.mp hy
    exact hdistinct x hxm.1 y hym.1 hxm.2 hym.2 hne hxy
  have hsub : ((s.points.filter sel).map (fun p => p.value)).toFinset ⊆ Finset.Icc 1 9 := by
    intro w hw
    rw [List.mem_toFinset, List.mem_map] at hw
    obtain ⟨p, hp, rfl⟩ := hw
    have := hval p (List.mem_filter.mp hp).1
    rw [Finset.mem_Icc]
    exact this
  have hcards : ((s.points.filter sel).map (fun p => p.value)).toFinset.card = 9 := by
    rw [List.toFinset_card_of_nodup hlvnodup, List.length_map]
    exact hcard
  have hfeq : ((s.points.filter sel).map (fun p => p.value)).toFinset = Finset.Icc 1 9 := by
    apply Finset.eq_of_subset_of_card_le hsub
    rw [hcards]
    simp
  have hvmem : v ∈ (s.points.filter sel).map (fun p => p.value) := by
    rw [← List.mem_toFinset, hfeq, Finset.mem_Icc]
    exact ⟨hv1, hv9⟩
  have hcount : ((s.points.filter sel).map (fun p => p.value)).count v = 1 :=
    List.count_eq_one_of_mem hlvnodup hvmem
  rw [List.count_eq_countP, List.countP_map] at hcount
  rw [← List.countP_eq_length_filter] at hcard ⊢
  rw [← hcount, List.countP_filter]
  apply List.countP_congr
  intro x _
  show (sel x && decide (x.value = v)) = true ↔ (((x.value == v) : Bool) && sel x) = true
  rw [Bool.and_comm]
  simp

theorem countP_points_eq_pos (s : Sudoku) (hlay : layout s) (pr : ℕ × ℕ → Bool) :
    s.points.countP (fun p => pr (p.row, p.col)) = boardPositions.countP pr := by
  rw [← hlay, List.countP_map]
  rfl

theorem complete_valid (s : Sudoku) (hInv : Inv s) (hdone : s.todo = []) : validBoard s := by
  obtain ⟨hlay, hle, _, hcf⟩ := hInv
  have hnodupmap := posNodup_of_layout s hlay
  have hnodup : s.points.Nodup := List.Nodup.of_map _ hnodupmap
  have hcomplete : ∀ p ∈ s.points, p.value ≠ 0 := by
    unfold Sudoku.todo at hdone
    have hlen := congrArg List.length hdone
    rw [List.length_insertionSort] at hlen
    simp only [List.length_nil] at hlen
    have hnil := List.eq_nil_of_length_eq_zero hlen
    rw [List.filter_eq_nil_iff] at hnil
    intro p hp
    have := hnil p hp
    simpa using this
  have hval : ∀ p ∈ s.points, 1 ≤ p.value ∧ p.value ≤ 9 := by
    intro p hp
    have h1 := hle p hp
    have h2 := hcomplete p hp
    omega
  have hposne : ∀ x ∈ s.points, ∀ y ∈ s.points, x ≠ y → (x.row, x.col) ≠ (y.row, y.col) := by
    intro x hx y hy hne heq
    rw [Prod.mk.injEq] at heq
    exact hne (pos_inj s hlay x hx y hy heq.1 heq.2)
  refine ⟨hval, ?_, ?_, ?_⟩
  · intro r hr v hv1 hv9
    have h1 := unit_values_once s hnodup hval (fun p => decide (p.row = r)) ?_ ?_ v hv1 hv9
    · rw [← h1]
      apply congrArg
      apply List.filter_congr
      intro x _
      simp
    · rw [← List.countP_eq_length_filter]
      have := countP_points_eq_pos s hlay (fun pr => decide (pr.1 = r))
      rw [this]
      interval_cases r <;> decide
    · intro x hx y hy hsx hsy hne heq
      simp only [decide_eq_true_eq] at hsx hsy
      have h0 : x.value ≠ 0 := hcomplete x hx
      have := hcf x hx y hy (hposne x hx y hy hne) h0 heq
      exact absurd (hsx.trans hsy.symm) this.1
  · intro c hc v hv1 hv9
    have h1 := unit_values_once s hnodup hval (fun p => decide (p.col = c)) ?_ ?_ v hv1 hv9
    · rw [← h1]
      apply congrArg
      apply List.filter_congr
      intro x _
      simp
    · rw [← List.countP_eq_length_filter]
      have := countP_points_eq_pos s hlay (fun pr => decide (pr.2 = c))
      rw [this]
      interval_cases c <;> decide
    · intro x hx y hy hsx hsy hne heq
      simp only [decide_eq_true_eq] at hsx hsy
      have h0 : x.value ≠ 0 := hcomplete x hx
      have := hcf x hx y hy (hposne x hx y hy hne) h0 heq
      exact absurd (hsx.trans hsy.symm) this.2.1
  · intro br hbr bc hbc v hv1 hv9
    have h1 := unit_values_once s hnodup hval
      (fun p => decide (p.bigrow = br ∧ p.bigcol = bc)) ?_ ?_ v hv1 hv9
    · rw [← h1]
      apply congrArg
      apply List.filter_congr
      intro x _
      simp [and_assoc, Bool.and_assoc]
    · rw [← List.countP_eq_length_filter]
      have hc : s.points.countP (fun p => decide (p.bigrow = br ∧ p.bigcol = bc)) =
          s.points.countP (fun p =>
            (fun pr : ℕ × ℕ => decide (pr.1 / 3 = br ∧ pr.2 / 3 = bc)) (p.row, p.col)) := rfl
      rw [hc, countP_points_eq_pos s hlay (fun pr : ℕ × ℕ => decide (pr.1 / 3 = br ∧ pr.2 / 3 = bc))]
      interval_cases br <;> interval_cases bc <;> decide
    · intro x hx y hy hsx hsy hne heq
      simp only [decide_eq_true_eq] at hsx hsy
      have h0 : x.value ≠ 0 := hcomplete x hx
      have h3 := (hcf x hx y hy (hposne x hx y hy hne) h0 heq).2.2
      apply h3
      rw [Prod.mk.injEq]
      exact ⟨hsx.1.trans hsy.1.symm, hsx.2.trans hsy.2.symm⟩

instance validBoard_decidable (s : Sudoku) : Decidable (validBoard s) := by
  unfold validBoard
  infer_instance

instance Inv_decidable (s : Sudoku) : Decidable (Inv s) := by
  unfold Inv layout goodCache conflictFree
  infer_instance

/-- Board built from a starting string of 81 ones: completely filled but invalid. -/
def allOnes : Sudoku := mkSudoku ⟨List.replicate 81 '1'⟩ ⟨[]⟩

/-- C1 counterexample: the claim as stated fails — on the board built from 81 ones,
which is completely filled but has every row holding the value 1 nine times, `solve`
returns success immediately and reports that invalid board (givens are never validated). -/
theorem C1_counterexample :
    solve pickOne true 3 allOnes 0 initStats = some (.success allOnes, initStats) ∧
    ¬ validBoard allOnes := by
  constructor
  · decide
  · decide

/-- C1 (amended): restricted to well-formed boards whose set values contain no duplicate
within any row, column or 3x3 block — in particular boards whose starting string is not
already contradictory — every success of `solve` reports a completely filled, valid
board: each cell holds a value 1-9 and every row, column and 3x3 block contains each of
1-9 exactly once. -/
theorem C1_amended_success_valid (pick : Finset ℕ → ℕ)
    (hpick : ∀ A : Finset ℕ, A.Nonempty → pick A ∈ A) (dflag : Bool) (f : ℕ) (s : Sudoku)
    (hInv : Inv s) (level : ℕ) (st : Stats) (b : Sudoku) (st2 : Stats)
    (h : solve pick dflag f s level st = some (.success b, st2)) : validBoard b := by
  obtain ⟨hb, hdone⟩ := (solve_success_sound pick hpick dflag f).1 s level st b st2 hInv h
  exact complete_valid b hb hdone

/-- A fully solved reference grid. -/
def solvedStr : String :=
  "534678912672195348198342567859761423426853791713924856961537284287419635345286179"

theorem C1_amended_success_valid_witness : validBoard (mkSudoku solvedStr c8str) :=
  C1_amended_success_valid pickOne pickOne_mem true 3 (mkSudoku solvedStr c8str)
    (by decide) 0 initStats (mkSudoku solvedStr c8str) initStats (by decide)

/-! ### Termination measure (claim C5) -/

/-- Number of unset cells on the board. -/
def unsetCount (s : Sudoku) : ℕ :=
  (s.points.filter (fun p => decide (p.value = 0))).length

/-- Termination measure: total number of fresh candidate values over the unset cells. -/
def availTotal (s : Sudoku) : ℕ :=
  ((s.points.filter (fun p => decide (p.value = 0))).map (fun p => (s.availFresh p).card)).sum

theorem filter_map_sum_eq (l : List Point) (pr : Point → Bool) (f : Point → ℕ) :
    ((l.filter pr).map f).sum = (l.map (fun p => if pr p then f p else 0)).sum := by
  induction l with
  | nil => rfl
  | cons a l ih =>
      by_cases h : pr a
      · rw [List.filter_cons_of_pos h]
        simp only [List.map_cons, List.sum_cons, if_pos h, ih]
      · rw [List.filter_cons_of_neg h]
        simp only [List.map_cons, List.sum_cons, if_neg h, ih]
        omega

theorem onrow_setpoint_mono (s : Sudoku) (t : Point) (v : ℕ) (tag : Char) (hlay : layout s)
    (ht : t ∈ s.points) (ht0 : t.value = 0) (q : Point) :
    s.onrow q ⊆ Sudoku.onrow (s.setpoint t v tag) q := by
  intro w hw
  rw [mem_onrow] at hw ⊢
  obtain ⟨x, hx, h0, hr, hval⟩ := hw
  have hnot : ¬(x.row = t.row ∧ x.col = t.col) := by
    intro hc
    have hxt : x = t := pos_inj s hlay x hx t ht hc.1 hc.2
    rw [hxt] at h0
    exact h0 ht0
  refine ⟨setfn t v tag x, ?_, ?_, ?_, ?_⟩
  · rw [setpoint_points2]
    exact List.mem_map_of_mem _ hx
  · rw [setfn_value_neg t v tag x hnot]
    exact h0
  · rw [setfn_row]
    exact hr
  · rw [setfn_value_neg t v tag x hnot]
    exact hval

theorem oncol_setpoint_mono (s : Sudoku) (t : Point) (v : ℕ) (tag : Char) (hlay : layout s)
    (ht : t ∈ s.points) (ht0 : t.value = 0) (q : Point) :
    s.oncol q ⊆ Sudoku.oncol (s.setpoint t v tag) q := by
  intro w hw
  rw [mem_oncol] at hw ⊢
  obtain ⟨x, hx, h0, hr, hval⟩ := hw
  have hnot : ¬(x.row = t.row ∧ x.col = t.col) := by
    intro hc
    have hxt : x = t := pos_inj s hlay x hx t ht hc.1 hc.2
    rw [hxt] at h0
    exact h0 ht0
  refine ⟨setfn t v tag x, ?_, ?_, ?_, ?_⟩
  · rw [setpoint_points2]
    exact List.mem_map_of_mem _ hx
  · rw [setfn_value_neg t v tag x hnot]
    exact h0
  · rw [setfn_col]
    exact hr
  · rw [setfn_value_neg t v tag x hnot]
    exact hval

theorem in3x3_setpoint_mono (s : Sudoku) (t : Point) (v : ℕ) (tag : Char) (hlay : layout s)
    (ht : t ∈ s.points) (ht0 : t.value = 0) (q : Point) :
    s.in3x3 q ⊆ Sudoku.in3x3 (s.setpoint t v tag) q := by
  intro w hw
  rw [mem_in3x3] at hw ⊢
  obtain ⟨x, hx, h0, hr, hc2, hval⟩ := hw
  have hnot : ¬(x.row = t.row ∧ x.col = t.col) := by
    intro hc
    have hxt : x = t := pos_inj s hlay x hx t ht hc.1 hc.2
    rw [hxt] at h0
    exact h0 ht0
  refine ⟨setfn t v tag x, ?_, ?_, ?_, ?_, ?_⟩
  · rw [setpoint_points2]
    exact List.mem_map_of_mem _ hx
  · rw [setfn_value_neg t v tag x hnot]
    exact h0
  · rw [setfn_bigrow]
    exact hr
  · rw [setfn_bigcol]
    exact hc2
  · rw [setfn_value_neg t v tag x hnot]
    exact hval

theorem availFresh_setpoint_subset (s : Sudoku) (t : Point) (v : ℕ) (tag : Char)
    (hlay : layout s) (ht : t ∈ s.points) (ht0 : t.value = 0) (x : Point) :
    Sudoku.availFresh (s.setpoint t v tag) (setfn t v tag x) ⊆ s.availFresh x := by
  unfold Sudoku.availFresh
  apply Finset.sdiff_subset_sdiff (le_refl _)
  unfold Sudoku.used
  rw [onrow_arg _ (setfn t v tag x) x (setfn_row t v tag x),
    oncol_arg _ (setfn t v tag x) x (setfn_col t v tag x),
    in3x3_arg _ (setfn t v tag x) x (setfn_bigrow t v tag x) (setfn_bigcol t v tag x),
    setfn_failed]
  apply Finset.union_subset_union ?_ (le_refl _)
  apply Finset.union_subset_union ?_ (in3x3_setpoint_mono s t v tag hlay ht ht0 x)
  exact Finset.union_subset_union (oncol_setpoint_mono s t v tag hlay ht ht0 x)
    (onrow_setpoint_mono s t v tag hlay ht ht0 x)

@[simp] theorem failfn_bigrow (t : Point) (v : ℕ) (p : Point) :
    (failfn t v p).bigrow = p.bigrow := by
  unfold Point.bigrow
  rw [failfn_row]

@[simp] theorem failfn_bigcol (t : Point) (v : ℕ) (p : Point) :
    (failfn t v p).bigcol = p.bigcol := by
  unfold Point.bigcol
  rw [failfn_col]

theorem failfn_failed_self (t : Point) (v : ℕ) :
    (failfn t v t).failed = insert v t.failed := by
  unfold failfn
  rw [if_pos ⟨rfl, rfl⟩]

theorem failfn_failed_superset (t : Point) (v : ℕ) (x : Point) :
    x.failed ⊆ (failfn t v x).failed := by
  unfold failfn
  by_cases h : x.row = t.row ∧ x.col = t.col
  · rw [if_pos h]
    show x.failed ⊆ insert v x.failed
    exact Finset.subset_insert v x.failed
  · rw [if_neg h]

theorem availTotal_setpoint_lt (s : Sudoku) (t : Point) (v : ℕ) (tag : Char)
    (hlay : layout s) (ht : t ∈ s.points) (ht0 : t.value = 0) (hv : v ∈ s.availFresh t) :
    availTotal (s.setpoint t v tag) < availTotal s := by
  have hv0 : v ≠ 0 := by
    have := (mem_availFresh_facts s t v hv).1
    omega
  unfold availTotal
  rw [setpoint_points2, filter_map_sum_eq, filter_map_sum_eq, List.map_map]
  apply List.sum_lt_sum
  · intro x hx
    show (if decide ((setfn t v tag x).value = 0) then
        (Sudoku.availFresh (s.setpoint t v tag) (setfn t v tag x)).card else 0) ≤
      (if decide (x.value = 0) then (s.availFresh x).card else 0)
    by_cases hc : x.row = t.row ∧ x.col = t.col
    · rw [setfn_value_pos t v tag x hc, if_neg (by simpa using hv0)]
      omega
    · rw [setfn_value_neg t v tag x hc]
      by_cases h0 : x.value = 0
      · rw [if_pos (by simpa using h0), if_pos (by simpa using h0)]
        exact Finset.card_le_card (availFresh_setpoint_subset s t v tag hlay ht ht0 x)
      · rw [if_neg (by simpa using h0), if_neg (by simpa using h0)]
  · refine ⟨t, ht, ?_⟩
    show (if decide ((setfn t v tag t).value = 0) then
        (Sudoku.availFresh (s.setpoint t v tag) (setfn t v tag t)).card else 0) <
      (if decide (t.value = 0) then (s.availFresh t).card else 0)
    rw [setfn_value_pos t v tag t ⟨rfl, rfl⟩, if_neg (by simpa using hv0),
      if_pos (by simpa using ht0)]
    exact Finset.card_pos.mpr ⟨v, hv⟩

theorem onrow_failed (s : Sudoku) (t : Point) (v : ℕ) (q : Point) :
    Sudoku.onrow (s.failed t v) q = s.onrow q := by
  unfold Sudoku.onrow
  rw [failed_points2]
  congr 1
  apply filter_map_value
  · intro p _
    simp
  · intro p _
    simp

theorem oncol_failed (s : Sudoku) (t : Point) (v : ℕ) (q : Point) :
    Sudoku.oncol (s.failed t v) q = s.oncol q := by
  unfold Sudoku.oncol
  rw [failed_points2]
  congr 1
  apply filter_map_value
  · intro p _
    simp
  · intro p _
    simp

theorem in3x3_failed (s : Sudoku) (t : Point) (v : ℕ) (q : Point) :
    Sudoku.in3x3 (s.failed t v) q = s.in3x3 q := by
  unfold Sudoku.in3x3
  rw [failed_points2]
  congr 1
  apply filter_map_value
  · intro p _
    simp
  · intro p _
    simp

theorem availFresh_failed_eq (s : Sudoku) (t : Point) (v : ℕ) (q : Point) :
    Sudoku.availFresh (s.failed t v) q =
      nineDigits \ (s.oncol q ∪ s.onrow q ∪ s.in3x3 q ∪ q.failed) := by
  unfold Sudoku.availFresh Sudoku.used
  rw [onrow_failed, oncol_failed, in3x3_failed]

theorem availFresh_failed_subset (s : Sudoku) (t : Point) (v : ℕ) (x : Point) :
    Sudoku.availFresh (s.failed t v) (failfn t v x) ⊆ s.availFresh x := by
  rw [availFresh_failed_eq]
  unfold Sudoku.availFresh Sudoku.used
  rw [oncol_arg _ (failfn t v x) x (failfn_col t v x),
    onrow_arg _ (failfn t v x) x (failfn_row t v x),
    in3x3_arg _ (failfn t v x) x (failfn_bigrow t v x) (failfn_bigcol t v x)]
  apply Finset.sdiff_subset_sdiff (le_refl _)
  apply Finset.union_subset_union (le_refl _) (failfn_failed_superset t v x)

theorem availTotal_failed_lt (s : Sudoku) (t : Point) (v : ℕ) (_hlay : layout s)
    (ht : t ∈ s.points) (ht0 : t.value = 0) (hv : v ∈ s.availFresh t) :
    availTotal (s.failed t v) < availTotal s := by
  unfold availTotal
  rw [failed_points2, filter_map_sum_eq, filter_map_sum_eq, List.map_map]
  apply List.sum_lt_sum
  · intro x hx
    show (if decide ((failfn t v x).value = 0) then
        (Sudoku.availFresh (s.failed t v) (failfn t v x)).card else 0) ≤
      (if decide (x.value = 0) then (s.availFresh x).card else 0)
    rw [failfn_value]
    by_cases h0 : x.value = 0
    · rw [if_pos (by simpa using h0), if_pos (by simpa using h0)]
      exact Finset.card_le_card (availFresh_failed_subset s t v x)
    · rw [if_neg (by simpa using h0), if_neg (by simpa using h0)]
  · refine ⟨t, ht, ?_⟩
    show (if decide ((failfn t v t).value = 0) then
        (Sudoku.availFresh (s.failed t v) (failfn t v t)).card else 0) <
      (if decide (t.value = 0) then (s.availFresh t).card else 0)
    rw [failfn_value, if_pos (by simpa using ht0), if_pos (by simpa using ht0)]
    apply Finset.card_lt_card
    rw [Finset.ssubset_iff_of_subset (availFresh_failed_subset s t v t)]
    refine ⟨v, hv, ?_⟩
    rw [availFresh_failed_eq]
    intro hmem
    rw [Finset.mem_sdiff] at hmem
    apply hmem.2
    simp only [Finset.mem_union]
    right
    rw [failfn_failed_self]
    exact Finset.mem_insert_self v t.failed

theorem length_filter_as_sum (l : List Point) (pr : Point → Bool) :
    (l.filter pr).length = (l.map (fun p => if pr p then 1 else 0)).sum := by
  induction l with
  | nil => rfl
  | cons a l ih =>
      by_cases h : pr a
      · rw [List.filter_cons_of_pos h]
        simp only [List.length_cons, List.map_cons, List.sum_cons, if_pos h, ih]
        omega
      · rw [List.filter_cons_of_neg h]
        simp only [List.map_cons, List.sum_cons, if_neg h, ih]
        omega

theorem unsetCount_failed_eq (s : Sudoku) (t : Point) (v : ℕ) :
    unsetCount (s.failed t v) = unsetCount s := by
  unfold unsetCount
  rw [failed_points2, ← List.countP_eq_length_filter, ← List.countP_eq_length_filter,
    List.countP_map]
  apply List.countP_congr
  intro x _
  show decide ((failfn t v x).value = 0) = true ↔ decide (x.value = 0) = true
  rw [failfn_value]

theorem unsetCount_setpoint_lt (s : Sudoku) (t : Point) (v : ℕ) (tag : Char)
    (ht : t ∈ s.points) (ht0 : t.value = 0) (hv0 : v ≠ 0) :
    unsetCount (s.setpoint t v tag) < unsetCount s := by
  unfold unsetCount
  rw [setpoint_points2, length_filter_as_sum, length_filter_as_sum, List.map_map]
  apply List.sum_lt_sum
  · intro x hx
    show (if decide ((setfn t v tag x).value = 0) then 1 else 0) ≤
      (if decide (x.value = 0) then 1 else 0)
    by_cases hc : x.row = t.row ∧ x.col = t.col
    · rw [setfn_value_pos t v tag x hc, if_neg (by simpa using hv0)]
      omega
    · rw [setfn_value_neg t v tag x hc]
  · refine ⟨t, ht, ?_⟩
    show (if decide ((setfn t v tag t).value = 0) then 1 else 0) <
      (if decide (t.value = 0) then 1 else 0)
    rw [setfn_value_pos t v tag t ⟨rfl, rfl⟩, if_neg (by simpa using hv0),
      if_pos (by simpa using ht0)]
    omega

theorem unsetCount_le_81 (s : Sudoku) (hlay : layout s) : unsetCount s ≤ 81 := by
  unfold unsetCount
  calc (s.points.filter fun p => decide (p.value = 0)).length
      ≤ s.points.length := List.length_filter_le _ _
    _ = 81 := length_of_layout s hlay

theorem availTotal_pos (s : Sudoku) (t : Point) (ht : t ∈ s.points) (ht0 : t.value = 0)
    (hne : (s.availFresh t).Nonempty) : 1 ≤ availTotal s := by
  unfold availTotal
  have htf : t ∈ s.points.filter (fun p => decide (p.value = 0)) :=
    List.mem_filter.mpr ⟨ht, by simpa using ht0⟩
  have hmem : (s.availFresh t).card ∈
      (s.points.filter (fun p => decide (p.value = 0))).map (fun p => (s.availFresh p).card) :=
    List.mem_map_of_mem _ htf
  have hle := List.le_sum_of_mem hmem
  have hcard := Finset.card_pos.mpr hne
  omega

/-- Well-formed board: the 81 standard cells in row-major order with sound caches.
Every constructed board satisfies this, whatever its starting string. -/
def WfBoard (s : Sudoku) : Prop := layout s ∧ goodCache s

instance WfBoard_decidable (s : Sudoku) : Decidable (WfBoard s) := by
  unfold WfBoard layout goodCache
  infer_instance

theorem solve_fuel_sufficient (pick : Finset ℕ → ℕ)
    (hpick : ∀ A : Finset ℕ, A.Nonempty → pick A ∈ A) (dflag : Bool) :
    ∀ f : ℕ,
      (∀ s level st, WfBoard s → 3 * availTotal s + 3 ≤ f →
        solve pick dflag f s level st ≠ none) ∧
      (∀ s level st, WfBoard s → 3 * availTotal s + 2 ≤ f →
        solveKnown pick dflag f s level st ≠ none) ∧
      (∀ s level st, WfBoard s → 3 * availTotal s + 1 ≤ f →
        solveGuess pick dflag f s level st ≠ none) := by
  intro f
  induction f with
  | zero =>
      refine ⟨?_, ?_, ?_⟩ <;> intro s level st _ hb <;> omega
  | succ f ih =>
      obtain ⟨ihS, ihK, ihG⟩ := ih
      refine ⟨?_, ?_, ?_⟩
      · intro s level st hW hb
        rw [solve_succ]
        exact ihK s level _ hW (by omega)
      · intro s level st hW hb
        rw [solveKnown_succ]
        by_cases hcond : s.todo ≠ [] ∧ ((s.available (s.todo.headD pdef)).card = 1 ∨
            (dflag ∧ s.deduced ≠ []))
        · rw [if_pos hcond]
          have hlay := hW.1
          have hgc := hW.2
          by_cases hone : (s.available (s.todo.headD pdef)).card = 1
          · rw [if_pos hone]
            obtain ⟨htmem, ht0⟩ := todo_head_mem s hcond.1
            have hne : (s.available (s.todo.headD pdef)).Nonempty := by
              rw [← Finset.card_pos, hone]
              omega
            have hfr : pick (s.available (s.todo.headD pdef)) ∈
                s.availFresh (s.todo.headD pdef) := by
              rw [← available_eq_fresh s hgc _ htmem ht0]
              exact hpick _ hne
            have hdec := availTotal_setpoint_lt s (s.todo.headD pdef) _ '=' hlay htmem ht0 hfr
            exact ihK _ level _
              ⟨layout_setpoint s _ _ '=' hlay, setpoint_goodCache s _ _ '='⟩ (by omega)
          · rw [if_neg hone]
            have hded : s.deduced ≠ [] := by
              rcases hcond.2 with hc | hc
              · exact absurd hc hone
              · exact hc.2
            obtain ⟨hdmem, hd0, hdne⟩ := deduced_head_mem s hded
            have hne : (s.deduce (s.deduced.headD pdef)).Nonempty :=
              Finset.nonempty_iff_ne_empty.mpr hdne
            have hpk : pick (s.deduce (s.deduced.headD pdef)) ∈
                s.available (s.deduced.headD pdef) :=
              deduce_subset s _ (hpick _ hne)
            have hfr : pick (s.deduce (s.deduced.headD pdef)) ∈
                s.availFresh (s.deduced.headD pdef) := by
              rw [← available_eq_fresh s hgc _ hdmem hd0]
              exact hpk
            have hdec := availTotal_setpoint_lt s (s.deduced.headD pdef) _ '*' hlay hdmem hd0 hfr
            exact ihK _ level _
              ⟨layout_setpoint s _ _ '*' hlay, setpoint_goodCache s _ _ '*'⟩ (by omega)
        · rw [if_neg hcond]
          exact ihG s level st hW (by omega)
      · intro s level st hW hb
        rw [solveGuess_succ]
        by_cases htd : s.todo ≠ []
        · rw [if_pos htd]
          by_cases hav : s.available (s.todo.headD pdef) ≠ ∅
          · rw [if_pos hav]
            have hlay := hW.1
            have hgc := hW.2
            obtain ⟨htmem, ht0⟩ := todo_head_mem s htd
            have hne : (s.available (s.todo.headD pdef)).Nonempty :=
              Finset.nonempty_iff_ne_empty.mpr hav
            have hfr : pick (s.available (s.todo.headD pdef)) ∈
                s.availFresh (s.todo.headD pdef) := by
              rw [← available_eq_fresh s hgc _ htmem ht0]
              exact hpick _ hne
            have hfrne : (s.availFresh (s.todo.headD pdef)).Nonempty := ⟨_, hfr⟩
            have hpos := availTotal_pos s _ htmem ht0 hfrne
            have hdec := availTotal_setpoint_lt s (s.todo.headD pdef) _
              (guessTags.getD (s.todo.headD pdef).failed.card '?') hlay htmem ht0 hfr
            have hW2 : WfBoard (s.setpoint (s.todo.headD pdef)
                (pick (s.available (s.todo.headD pdef)))
                (guessTags.getD (s.todo.headD pdef).failed.card '?')) :=
              ⟨layout_setpoint s _ _ _ hlay, setpoint_goodCache s _ _ _⟩
            cases hrec : solve pick dflag f
                (s.setpoint (s.todo.headD pdef) (pick (s.available (s.todo.headD pdef)))
                  (guessTags.getD (s.todo.headD pdef).failed.card '?')) (level + 1)
                { st with guesses := st.guesses + 1 } with
            | none => exact absurd hrec (ihS _ (level + 1) _ hW2 (by omega))
            | some r =>
                obtain ⟨res, st1⟩ := r
                cases res with
                | success b2 => simp
                | failure =>
                    have hdec2 := availTotal_failed_lt s (s.todo.headD pdef) _ hlay htmem ht0 hfr
                    exact ihG _ level _ ⟨layout_failed s _ _ hlay, failed_goodCache s _ _⟩ (by omega)
          · rw [if_neg hav]
            simp
        · rw [if_neg htd]
          simp

theorem solve_maxlevel_bound (pick : Finset ℕ → ℕ)
    (hpick : ∀ A : Finset ℕ, A.Nonempty → pick A ∈ A) (dflag : Bool) :
    ∀ f : ℕ,
      (∀ s level st res st2, WfBoard s → solve pick dflag f s level st = some (res, st2) →
        st2.maxlevel ≤ max st.maxlevel (level + unsetCount s)) ∧
      (∀ s level st res st2, WfBoard s → solveKnown pick dflag f s level st = some (res, st2) →
        st2.maxlevel ≤ max st.maxlevel (level + unsetCount s)) ∧
      (∀ s level st res st2, WfBoard s → solveGuess pick dflag f s level st = some (res, st2) →
        st2.maxlevel ≤ max st.maxlevel (level + unsetCount s)) := by
  intro f
  induction f with
  | zero =>
      refine ⟨?_, ?_, ?_⟩ <;> intro s level st res st2 _ h <;>
        simp [solve_zero, solveKnown_zero, solveGuess_zero] at h
  | succ f ih =>
      obtain ⟨ihS, ihK, ihG⟩ := ih
      refine ⟨?_, ?_, ?_⟩
      · intro s level st res st2 hW h
        rw [solve_succ] at h
        have h2 := ihK s level _ res st2 hW h
        have h3 : ({ st with maxlevel := max st.maxlevel level } : Stats).maxlevel =
          max st.maxlevel level := rfl
        rw [h3] at h2
        omega
      · intro s level st res st2 hW h
        rw [solveKnown_succ] at h
        have hlay := hW.1
        have hgc := hW.2
        by_cases hcond : s.todo ≠ [] ∧ ((s.available (s.todo.headD pdef)).card = 1 ∨
            (dflag ∧ s.deduced ≠ []))
        · rw [if_pos hcond] at h
          by_cases hone : (s.available (s.todo.headD pdef)).card = 1
          · rw [if_pos hone] at h
            obtain ⟨htmem, ht0⟩ := todo_head_mem s hcond.1
            have hne : (s.available (s.todo.headD pdef)).Nonempty := by
              rw [← Finset.card_pos, hone]
              omega
            have hfr : pick (s.available (s.todo.headD pdef)) ∈
                s.availFresh (s.todo.headD pdef) := by
              rw [← available_eq_fresh s hgc _ htmem ht0]
              exact hpick _ hne
            have hv0 : pick (s.available (s.todo.headD pdef)) ≠ 0 := by
              have := (mem_availFresh_facts s _ _ hfr).1
              omega
            have hu := unsetCount_setpoint_lt s (s.todo.headD pdef) _ '=' htmem ht0 hv0
            have h2 := ihK _ level _ res st2
              ⟨layout_setpoint s _ _ '=' hlay, setpoint_goodCache s _ _ '='⟩ h
            have h3 : ({ st with thinks := st.thinks + 1 } : Stats).maxlevel =
              st.maxlevel := rfl
            rw [h3] at h2
            omega
          · rw [if_neg hone] at h
            have hded : s.deduced ≠ [] := by
              rcases hcond.2 with hc | hc
              · exact absurd hc hone
              · exact hc.2
            obtain ⟨hdmem, hd0, hdne⟩ := deduced_head_mem s hded
            have hne : (s.deduce (s.deduced.headD pdef)).Nonempty :=
              Finset.nonempty_iff_ne_empty.mpr hdne
            have hpk : pick (s.deduce (s.deduced.headD pdef)) ∈
                s.available (s.deduced.headD pdef) :=
              deduce_subset s _ (hpick _ hne)
            have hfr : pick (s.deduce (s.deduced.headD pdef)) ∈
                s.availFresh (s.deduced.headD pdef) := by
              rw [← available_eq_fresh s hgc _ hdmem hd0]
              exact hpk
            have hv0 : pick (s.deduce (s.deduced.headD pdef)) ≠ 0 := by
              have := (mem_availFresh_facts s _ _ hfr).1
              omega
            have hu := unsetCount_setpoint_lt s (s.deduced.headD pdef) _ '*' hdmem hd0 hv0
            have h2 := ihK _ level _ res st2
              ⟨layout_setpoint s _ _ '*' hlay, setpoint_goodCache s _ _ '*'⟩ h
            have h3 : ({ st with deductions := st.deductions + 1 } : Stats).maxlevel =
              st.maxlevel := rfl
            rw [h3] at h2
            omega
        · rw [if_neg hcond] at h
          exact ihG s level st res st2 hW h
      · intro s level st res st2 hW h
        rw [solveGuess_succ] at h
        have hlay := hW.1
        have hgc := hW.2
        by_cases htd : s.todo ≠ []
        · rw [if_pos htd] at h
          by_cases hav : s.available (s.todo.headD pdef) ≠ ∅
          · rw [if_pos hav] at h
            obtain ⟨htmem, ht0⟩ := todo_head_mem s htd
            have hne : (s.available (s.todo.headD pdef)).Nonempty :=
              Finset.nonempty_iff_ne_empty.mpr hav
            have hfr : pick (s.available (s.todo.headD pdef)) ∈
                s.availFresh (s.todo.headD pdef) := by
              rw [← available_eq_fresh s hgc _ htmem ht0]
              exact hpick _ hne
            have hv0 : pick (s.available (s.todo.headD pdef)) ≠ 0 := by
              have := (mem_availFresh_facts s _ _ hfr).1
              omega
            have hu := unsetCount_setpoint_lt s (s.todo.headD pdef) _
              (guessTags.getD (s.todo.headD pdef).failed.card '?') htmem ht0 hv0
            have hW2 : WfBoard (s.setpoint (s.todo.headD pdef)
                (pick (s.available (s.todo.headD pdef)))
                (guessTags.getD (s.todo.headD pdef).failed.card '?')) :=
              ⟨layout_setpoint s _ _ _ hlay, setpoint_goodCache s _ _ _⟩
            cases hrec : solve pick dflag f
                (s.setpoint (s.todo.headD pdef) (pick (s.available (s.todo.headD pdef)))
                  (guessTags.getD (s.todo.headD pdef).failed.card '?')) (level + 1)
                { st with guesses := st.guesses + 1 } with
            | none =>
                rw [hrec] at h
                simp at h
            | some r =>
                rw [hrec] at h
                obtain ⟨res1, st1⟩ := r
                have hb1 := ihS _ (level + 1) _ res1 st1 hW2 hrec
                have h3 : ({ st with guesses := st.guesses + 1 } : Stats).maxlevel =
                  st.maxlevel := rfl
                rw [h3] at hb1
                cases res1 with
                | success b2 =>
                    simp only [Option.some.injEq, Prod.mk.injEq] at h
                    rw [← h.2]
                    omega
                | failure =>
                    have h2 := ihG _ level _ res st2 ⟨layout_failed s _ _ hlay, failed_goodCache s _ _⟩ h
                    have h4 : ({ st1 with fails := st1.fails + 1 } : Stats).maxlevel =
                      st1.maxlevel := rfl
                    rw [h4, unsetCount_failed_eq] at h2
                    omega
          · rw [if_neg hav] at h
            simp only [Option.some.injEq, Prod.mk.injEq] at h
            rw [← h.2]
            omega
        · rw [if_neg htd] at h
          simp only [Option.some.injEq, Prod.mk.injEq] at h
          rw [← h.2]
          omega

theorem failed_available_ssubset (s : Sudoku) (hW : WfBoard s) (t : Point) (ht : t ∈ s.points)
    (ht0 : t.value = 0) (v : ℕ) (hv : v ∈ s.available t) :
    ∀ q ∈ (s.failed t v).points, q.row = t.row → q.col = t.col →
      (s.failed t v).available q ⊂ s.available t := by
  have hlay := hW.1
  have hgc := hW.2
  have hfr : v ∈ s.availFresh t := by
    rw [← available_eq_fresh s hgc t ht ht0]
    exact hv
  intro q hq hr hc
  rw [failed_points2] at hq
  simp only [List.mem_map] at hq
  obtain ⟨x, hx, rfl⟩ := hq
  rw [failfn_row] at hr
  rw [failfn_col] at hc
  have hxt : x = t := pos_inj s hlay x hx t ht hr hc
  subst hxt
  have hmem2 : failfn x v x ∈ (s.failed x v).points := by
    rw [failed_points2]
    exact List.mem_map_of_mem _ hx
  have hval2 : (failfn x v x).value = 0 := by
    rw [failfn_value]
    exact ht0
  rw [available_eq_fresh (s.failed x v) (failed_goodCache s x v) _ hmem2 hval2,
    available_eq_fresh s hgc x hx ht0]
  rw [Finset.ssubset_iff_of_subset (availFresh_failed_subset s x v x)]
  refine ⟨v, hfr, ?_⟩
  rw [availFresh_failed_eq]
  intro hmem
  rw [Finset.mem_sdiff] at hmem
  apply hmem.2
  simp only [Finset.mem_union]
  right
  rw [failfn_failed_self]
  exact Finset.mem_insert_self v x.failed

/-- C5: on a well-formed board the search runs to completion at every depth: fuel
`3*availTotal+3` (a bound on the total loop and recursion nesting) suffices for `solve`
to return an answer rather than run out; the maximum recursion depth recorded in the
statistics is bounded by the entry depth plus the number of unset cells, which is at most
81; and in the search loop each failure recording strictly shrinks the chosen cell's
available-set, which is what forces progress. -/
theorem C5_solve_terminates (pick : Finset ℕ → ℕ)
    (hpick : ∀ A : Finset ℕ, A.Nonempty → pick A ∈ A) (dflag : Bool) (s : Sudoku)
    (hW : WfBoard s) (level : ℕ) (st : Stats) :
    (∀ f, 3 * availTotal s + 3 ≤ f → solve pick dflag f s level st ≠ none) ∧
    (∀ f res st2, solve pick dflag f s level st = some (res, st2) →
      st2.maxlevel ≤ max st.maxlevel (level + unsetCount s)) ∧
    unsetCount s ≤ 81 ∧
    (∀ t ∈ s.points, t.value = 0 → ∀ v ∈ s.available t,
      ∀ q ∈ (s.failed t v).points, q.row = t.row → q.col = t.col →
        (s.failed t v).available q ⊂ s.available t) := by
  refine ⟨?_, ?_, unsetCount_le_81 s hW.1, ?_⟩
  · intro f hf
    exact (solve_fuel_sufficient pick hpick dflag f).1 s level st hW hf
  · intro f res st2 h
    exact (solve_maxlevel_bound pick hpick dflag f).1 s level st res st2 hW h
  · intro t ht ht0 v hv
    exact failed_available_ssubset s hW t ht ht0 v hv

theorem C5_solve_terminates_witness :
    solve pickOne true (3 * availTotal (mkSudoku c8str c8str) + 3)
      (mkSudoku c8str c8str) 0 initStats ≠ none :=
  (C5_solve_terminates pickOne pickOne_mem true (mkSudoku c8str c8str) (by decide) 0
    initStats).1 _ (le_refl _)

end SudokuSpec
